import Mathlib

/-!
# A verification development for `shell.c`

A shallow embedding of the command shell in `src/shell.c`: the builtin table and
`lookup`, the trailing-token parser at the head of `cmd_exec`, the process
launcher of `cmd_exec` and `cmd_exec2`, and the `cd` builtin.

Conventions of the embedding.

* A C string is the list of its characters before the terminating NUL; a
  `char *` that may be `NULL` is an `Option String`.
* `int` and `size_t` values are `Int` and `Nat`.  Token counts come from one
  4096-byte input line (`main`), so no conversion between the two ever wraps.
* The operating system is explicit: a `World` holds what the kernel answers
  (which paths exist, directory listings, fork results, wait statuses), a
  `Sys` holds the state the shell changes (terminal foreground group, working
  directory) together with the trace of calls the shell process made.
* The model follows the shell (parent) process.  The code that runs in a
  forked child up to its `execv` is recorded in the `fork` event.
-/

namespace Shell

/-! ## Tokens (collaborator declared in `tokenizer.h`) -/

/-- Modelled from the spec: `tokens_get_length` of `tokenizer.h`, which is not
part of the sources.  A token sequence is an ordered sequence of strings and
this is its number of tokens. -/
def tokens_get_length (tokens : List String) : Nat := tokens.length

/-- Modelled from the spec: `tokens_get_token` of `tokenizer.h`, which is not
part of the sources.  Token `n` of the sequence (index 0 is the command
name), `NULL` when there is no such token. -/
def tokens_get_token (tokens : List String) (n : Nat) : Option String := tokens[n]?

/-! ## Builtin table and `lookup` -/

/-- The handlers a `fun_desc_t` can point to (`cmd_fun_t *fun`). -/
inductive CmdFun where
  | cmd_help
  | cmd_exit
  | cmd_chdir
  | cmd_pwd
  | cmd_exec
  deriving DecidableEq, Repr

/-- Built-in command struct `fun_desc_t`. -/
structure fun_desc_t where
  fun_ : CmdFun
  cmd : String
  doc : String
  deriving DecidableEq, Repr

/-- The table `cmd_table[]`. -/
def cmd_table : List fun_desc_t :=
  [ ⟨CmdFun.cmd_help, "?", "show this help menu"⟩,
    ⟨CmdFun.cmd_exit, "exit", "exit the command shell"⟩,
    ⟨CmdFun.cmd_chdir, "cd", "change the current directory"⟩,
    ⟨CmdFun.cmd_pwd, "pwd", "print the working directory"⟩,
    ⟨CmdFun.cmd_exec, "execv", "execute the file"⟩ ]

/-- The test of the loop body of `lookup` at index `i`:
`cmd && (strcmp(cmd_table[i].cmd, cmd) == 0)`. -/
def lookup_test (cmd : Option String) (i : Nat) : Bool :=
  match cmd, cmd_table[i]? with
  | some c, some e => decide (e.cmd = c)
  | _, _ => false

/-- The function `lookup`: the loop runs over
`i < sizeof(cmd_table) / sizeof(fun_desc_t) - 1` and returns the first index
that passes the test; after the loop the function returns
`sizeof(cmd_table) / sizeof(fun_desc_t) - 1`. -/
def lookup (cmd : Option String) : Int :=
  match (List.range (cmd_table.length - 1)).find? (lookup_test cmd) with
  | some i => (i : Int)
  | none => ((cmd_table.length - 1 : Nat) : Int)

/-- The dispatch in the loop of `main`: `fundex = lookup(token 0)`, and when
`fundex >= 0` the handler `cmd_table[fundex].fun` is called; `none` stands for
the branch that prints "This shell doesn't know how to run programs." -/
def main_dispatch (tokens : List String) : Option CmdFun :=
  let fundex := lookup (tokens_get_token tokens 0)
  if fundex ≥ 0 then (cmd_table[fundex.toNat]?).map (fun e => e.fun_) else none

/-! ## The trailing-token parser at the head of `cmd_exec` -/

/-- What `cmd_exec` has computed when it reaches the fork: the argument vector
`args[0 .. args_length]` (the written slots, `none` being `NULL`), `filename`,
`direction` and `background`. -/
structure CmdDescr where
  args : List (Option String)
  filename : Option String
  direction : Int
  background : Int
  deriving DecidableEq, Repr

/-- The condition `len > 0 && strcmp(tokens_get_token(tokens, len-1), "&") == 0`. -/
def is_background (tokens : List String) (len : Int) : Bool :=
  decide (len > 0) && decide (tokens_get_token tokens (len - 1).toNat = some "&")

/-- The part of `cmd_exec` from `if (len-2 > 0)` to `args[args_length] = NULL`,
entered with the current values of `len` and `background`. -/
def cmd_exec_redir (tokens : List String) (len : Int) (background : Int) : CmdDescr :=
  let sign : Option String := tokens_get_token tokens (len - 2).toNat
  let redirected : Bool :=
    decide (len - 2 > 0) && (decide (sign = some "<") || decide (sign = some ">"))
  let direction : Int := if redirected then (if sign = some "<" then -1 else 1) else 0
  let filename : Option String :=
    if redirected then tokens_get_token tokens (len - 1).toNat else none
  let args_length : Nat := (if direction = 0 then len else len - 2).toNat
  let args : List (Option String) :=
    (List.range args_length).map (fun i => tokens_get_token tokens i) ++ [none]
  ⟨args, filename, direction, background⟩

/-- The first part of `cmd_exec`, from `int len = tokens_get_length(tokens)` to
`args[args_length] = NULL`: the test for a trailing `&`, which sets
`background` and shortens `len`, and then the rest. -/
def cmd_exec_parse (tokens : List String) : CmdDescr :=
  let len : Int := (tokens_get_length tokens : Int)
  if is_background tokens len then cmd_exec_redir tokens (len - 1) 1
  else cmd_exec_redir tokens len 0

/-! ## The trailing tokens, read off the token sequence -/

/-- Whether the last token is exactly `&`. -/
def has_trailing_amp (tokens : List String) : Bool :=
  decide (tokens.getLast? = some "&")

/-- The tokens that remain once a trailing `&` is removed. -/
def without_amp (tokens : List String) : List String :=
  if has_trailing_amp tokens then tokens.dropLast else tokens

/-- The second-to-last element of a list, when it has at least two. -/
def second_to_last (r : List String) : Option String :=
  if 2 ≤ r.length then r[r.length - 2]? else none

/-- Whether the remaining tokens end in an operator/target pair: the
second-to-last remaining token is exactly `<` or `>`. -/
def has_trailing_pair (tokens : List String) : Bool :=
  decide (second_to_last (without_amp tokens) = some "<") ||
  decide (second_to_last (without_amp tokens) = some ">")

/-- Whether the remaining tokens end in an operator/target pair with at least
one token before the operator. -/
def has_redirection (tokens : List String) : Bool :=
  decide (2 < (without_amp tokens).length) && has_trailing_pair tokens

/-- The number of tokens left when the trailing `&` and, if `pair` says it is
there, the trailing operator/target pair are taken away. -/
def args_length_of (tokens : List String) (pair : Bool) : Nat :=
  tokens.length - (if has_trailing_amp tokens then 1 else 0) - (if pair then 2 else 0)

/-! ## The operating system as seen by the shell -/

/-- The `open` flags that occur (`fcntl.h`). -/
inductive OFlag where
  | O_RDONLY
  | O_WRONLY
  | O_CREAT
  | O_TRUNC
  deriving DecidableEq, Repr

/-- What a forked child does before its program image is replaced.  `dup2 n`
stands for `dup2(fd, n)` and `close` for `close(fd)`, where `fd` is the result
of the `open` before them. -/
inductive ChildOp where
  | printf (fmt : String)
  | open_ (pathname : Option String) (flags : List OFlag) (mode : Option Nat)
  | dup2 (newfd : Nat)
  | close
  | execv (path : Option String) (argv : List (Option String))
  deriving DecidableEq, Repr

/-- An argument of a `printf` or `sprintf` format. -/
inductive PArg where
  | int (v : Int)
  | str (s : Option String)
  deriving DecidableEq, Repr

inductive SigHandler where
  | SIG_IGN
  | SIG_DFL
  deriving DecidableEq, Repr

/-- The calls of the shell process that the model records, in program order. -/
inductive Call where
  | printf (fmt : String) (args : List PArg)
  | perror (fmt : String) (args : List PArg)
  | sprintf (size : Nat) (fmt : String) (args : List PArg)
  | access (pathname : Option String)
  | getenv (name : String)
  | fork (child : List ChildOp) (ret : Int)
  | setpgid (pid pgid : Int)
  | signal_SIGTTOU (h : SigHandler)
  | tcsetpgrp (fd : Int) (pgrp : Int)
  | wait (status : Int)
  | opendir (name : String)
  | closedir
  | chdir (path : Option String)
  | sys_exit (status : Int)
  deriving DecidableEq, Repr

/-- What the environment answers.  `fork_child n` is the outcome of the `n`-th
`fork` seen from the parent (`none`: the fork failed and returned -1,
`some k`: the child has pid `k + 1`); `wait_status n` is the value found in
`status` after the `n`-th `wait`; `setpgid_ok n` tells whether the child of
fork `n` can still be moved to a new group (it has not performed its `execv`
yet); `residue` is what the bytes of memory beyond the written part of a
buffer without terminator read as, up to the first NUL byte;
`overflow_aborts` tells whether a `sprintf` that writes past the end of its
buffer is caught and the process killed with `SIGABRT` inside the call (a build
with checked string functions), or the bytes go into the neighbouring stack
and execution goes on. -/
structure World where
  file_exists : String → Bool
  PATH : String
  HOME : Option String
  dir_entries : String → Option (List String)
  is_dir : String → Bool
  isatty : Bool
  fork_child : Nat → Option Nat
  setpgid_ok : Nat → Bool
  wait_status : Nat → Int
  residue : List Char
  overflow_aborts : Bool

/-- The state the shell process lives in: its pid and process group, the
global `shell_pgid`, the process groups it created for children, the
foreground process group of the controlling terminal, the disposition of
`SIGTTOU`, the working directory (the path of the last successful `chdir`),
the numbers of `fork` and `wait` calls so far, and the calls made so far. -/
structure Sys where
  pid : Int
  pgrp : Int
  shell_pgid : Int
  child_groups : List Int
  fg : Int
  sigttou : SigHandler
  cwd : String
  nfork : Nat
  nwait : Nat
  trace : List Call
  deriving DecidableEq, Repr

/-- Record one call. -/
def Sys.emit (s : Sys) (c : Call) : Sys := { s with trace := s.trace ++ [c] }

/-- The test `access(cmd, F_OK) != -1`; a `NULL` path fails with `EFAULT`. -/
def sys_access (w : World) (cmd : Option String) : Bool :=
  match cmd with
  | none => false
  | some p => w.file_exists p

/-- The call `fork()` in the parent: its return value and the state after. -/
def sys_fork (w : World) (child : List ChildOp) (s : Sys) : Int × Sys :=
  let ret : Int := match w.fork_child s.nfork with
    | none => -1
    | some k => (k : Int) + 1
  (ret, { s with nfork := s.nfork + 1, trace := s.trace ++ [Call.fork child ret] })

/-- The call `wait(&status)`: the status read afterwards and the state after. -/
def sys_wait (w : World) (s : Sys) : Int × Sys :=
  (w.wait_status s.nwait,
   { s with nwait := s.nwait + 1, trace := s.trace ++ [Call.wait (w.wait_status s.nwait)] })

/-- The call `setpgid(pid, pgid)` made right after a fork: it creates the
group when `pid` is a child that has not yet performed its `execv`. -/
def sys_setpgid (w : World) (pid pgid : Int) (s : Sys) : Sys :=
  { s with
    child_groups :=
      if decide (0 < pid) && w.setpgid_ok (s.nfork - 1) then pgid :: s.child_groups
      else s.child_groups,
    trace := s.trace ++ [Call.setpgid pid pgid] }

/-- The call `signal(SIGTTOU, h)`. -/
def sys_signal_SIGTTOU (h : SigHandler) (s : Sys) : Sys :=
  { s with sigttou := h, trace := s.trace ++ [Call.signal_SIGTTOU h] }

/-- The call `tcsetpgrp(0, pgrp)`: the terminal changes hands when descriptor
0 is the terminal and `pgrp` names the caller's own process group or a group
it created for a child; otherwise the call fails and nothing changes. -/
def sys_tcsetpgrp (w : World) (pgrp : Int) (s : Sys) : Sys :=
  { s with
    fg := if w.isatty && (decide (pgrp = s.pgrp) || decide (pgrp ∈ s.child_groups)) then pgrp
          else s.fg,
    trace := s.trace ++ [Call.tcsetpgrp 0 pgrp] }

/-- The call `chdir(path)`. -/
def sys_chdir (w : World) (path : Option String) (s : Sys) : Sys :=
  match path with
  | none => s.emit (Call.chdir none)
  | some p =>
    if w.is_dir p then { s with cwd := p, trace := s.trace ++ [Call.chdir (some p)] }
    else s.emit (Call.chdir (some p))

/-! ## Start-up -/

/-- The interactive part of `init_shell` once its loop is left, that is when
`tcgetpgrp(shell_terminal) == getpgrp()`: `shell_pgid = getpid()` and
`tcsetpgrp(shell_terminal, shell_pgid)`.  While the shell is not in the
foreground the loop stops the process with `SIGTTIN`; that waiting is outside
the model and the result is `none`.  A shell whose input is not a terminal
leaves everything as it is. -/
def init_shell (w : World) (s : Sys) : Option Sys :=
  if w.isatty then
    if s.fg = s.pgrp then some (sys_tcsetpgrp w s.pid { s with shell_pgid := s.pid })
    else none
  else some s

/-! ## Builtin `cd` -/

/-- How a handler ends: it returns a value to the loop of `main`, the process
terminates through `exit`, or the process is killed with `SIGABRT`. -/
inductive Outcome where
  | returned (v : Int)
  | exited (status : Int)
  | aborted
  deriving DecidableEq, Repr

/-- The number of bytes `sprintf(str, "expect 0 or 1 argument, %lu are given\n", n)`
writes to `str`: the text before the number, its decimal digits, the text
after it, and the terminating NUL. -/
def sprintf_usage_bytes (n : Nat) : Nat :=
  "expect 0 or 1 argument, ".length + (Nat.toDigits 10 n).length + " are given\n".length + 1

/-- The function `cmd_chdir`.  In the first branch `sprintf` writes
`sprintf_usage_bytes (len - 1)` bytes into `char str[30]`; when they do not
fit, the process is killed inside the call where overflows are caught, and
elsewhere execution goes on to `perror(str)` and `exit(1)`. -/
def cmd_chdir (w : World) (tokens : List String) (s : Sys) : Outcome × Sys :=
  let len := tokens_get_length tokens
  if len > 2 then
    let s := s.emit
      (Call.sprintf 30 "expect 0 or 1 argument, %lu are given\n" [PArg.int ((len : Int) - 1)])
    if decide (sprintf_usage_bytes (len - 1) > 30) && w.overflow_aborts then
      (Outcome.aborted, s)
    else
      (Outcome.exited 1,
       (s.emit (Call.perror "expect 0 or 1 argument, %lu are given\n"
         [PArg.int ((len : Int) - 1)])).emit (Call.sys_exit 1))
  else if len = 2 then
    (Outcome.returned 0, sys_chdir w (tokens_get_token tokens 1) s)
  else
    (Outcome.returned 0, sys_chdir w w.HOME (s.emit (Call.getenv "HOME")))

/-! ## The process launcher -/

/-- The child of the fork in `cmd_exec` (the branch `fork() == 0`), up to its
`execv`.  What a child does when `execv` fails is not followed. -/
def cmd_exec_child (cmd : Option String) (d : CmdDescr) : List ChildOp :=
  [ChildOp.printf "the child pgid is %d\n"] ++
  (if d.direction = -1 then
     [ChildOp.open_ d.filename [OFlag.O_RDONLY] none, ChildOp.dup2 0, ChildOp.close]
   else if d.direction = 1 then
     [ChildOp.open_ d.filename [OFlag.O_CREAT, OFlag.O_WRONLY] (some 0o644), ChildOp.dup2 1,
      ChildOp.close]
   else []) ++
  [ChildOp.execv cmd d.args]

/-- The branch `access(cmd, F_OK) != -1` of `cmd_exec`, seen from the parent. -/
def cmd_exec_direct (w : World) (cmd : Option String) (d : CmdDescr) (s : Sys) : Sys :=
  let r := sys_fork w (cmd_exec_child cmd d) s
  let cpid := r.1
  let s := r.2
  if d.background = 0 then
    let s := sys_setpgid w cpid cpid s
    let s := sys_signal_SIGTTOU SigHandler.SIG_IGN s
    let s := sys_tcsetpgrp w cpid s
    let s := (sys_wait w s).2
    let s := sys_tcsetpgrp w s.pid s
    sys_signal_SIGTTOU SigHandler.SIG_DFL s
  else s

/-- The child of the fork in `cmd_exec2` (the branch `fork() == 0`), up to its
`execv` of `exec_path`, which is `path`, `/` and the entry name. -/
def cmd_exec2_child (path d_name : String) (args : List (Option String))
    (filename : Option String) (direction : Int) : List ChildOp :=
  let exec_path := path ++ "/" ++ d_name
  (if direction = -1 then
     [ChildOp.open_ filename [OFlag.O_RDONLY] none, ChildOp.dup2 0, ChildOp.close]
   else if direction = 1 then
     [ChildOp.open_ filename [OFlag.O_CREAT, OFlag.O_WRONLY] (some 0o644), ChildOp.dup2 1,
      ChildOp.close]
   else []) ++
  [ChildOp.execv (some exec_path) args]

/-- The loop `while ((entry = readdir(dir)) != NULL)` of `cmd_exec2` over the
entries still to be read; `true` when the function returned 0 from inside the
loop. -/
def cmd_exec2_readdir (w : World) (path name : String) (args : List (Option String))
    (filename : Option String) (direction : Int) : List String → Sys → Bool × Sys
  | [], s => (false, s)
  | d_name :: rest, s =>
    if name = d_name then
      let s := (sys_fork w (cmd_exec2_child path d_name args filename direction) s).2
      let r := sys_wait w s
      if r.1 = 0 then (true, r.2)
      else cmd_exec2_readdir w path name args filename direction rest r.2
    else cmd_exec2_readdir w path name args filename direction rest s

/-- The function `cmd_exec2`. -/
def cmd_exec2 (w : World) (path : String) (name : Option String) (args : List (Option String))
    (filename : Option String) (direction : Int) (s : Sys) : Int × Sys :=
  let s := s.emit (Call.printf "direcotry: %s, cmd: %s\n" [PArg.str (some path), PArg.str name])
  match name with
  | none => (-1, s)
  | some name =>
    let s := s.emit (Call.opendir path)
    match w.dir_entries path with
    | none => (-1, s.emit (Call.perror "unable to open the directory" []))
    | some entries =>
      let r := cmd_exec2_readdir w path name args filename direction entries s
      if r.1 then (0, r.2) else (-1, r.2.emit Call.closedir)

/-- One byte of a `char` array: never written, the NUL byte, or a character. -/
inductive Cell where
  | indet
  | nul
  | chr (c : Char)
  deriving DecidableEq, Repr

/-- Reading a `char` array as a C string: the characters up to the first NUL.
When the read reaches a byte that was never written, or the end of the array,
it continues into memory the program never set, which reads as `residue`. -/
def c_str (residue : List Char) : List Cell → List Char
  | [] => residue
  | Cell.indet :: _ => residue
  | Cell.nul :: _ => []
  | Cell.chr c :: rest => c :: c_str residue rest

/-- The block `char path[end-start+1]; int idx = 0;
for (int i = start; i < end; i++) path[idx++] = paths[i];`. -/
def copy_segment (paths : List Char) (start end_ : Nat) : List Cell :=
  (List.range (end_ - start)).map (fun k => Cell.chr (paths.getD (start + k) ' ')) ++ [Cell.indet]

/-- The `PATH` loop of `cmd_exec` and the code after it.  The list argument is
the pointer `paths + end`, so its head is `paths[end]` and the empty list is
`paths[end] == 0`. -/
def cmd_exec_scan (w : World) (paths : List Char) (cmd : Option String) (d : CmdDescr) :
    List Char → Nat → Nat → Sys → Int × Sys
  | [], start, end_, s =>
    let path := c_str w.residue (copy_segment paths start end_)
    let r := cmd_exec2 w (String.mk path) cmd d.args d.filename d.direction s
    if r.1 = 0 then (0, r.2) else (-1, r.2)
  | c :: rest, start, end_, s =>
    if c = ':' then
      let path := c_str w.residue ((copy_segment paths start end_).set (end_ - start) Cell.nul)
      let r := cmd_exec2 w (String.mk path) cmd d.args d.filename d.direction s
      if r.1 = 0 then (0, r.2)
      else cmd_exec_scan w paths cmd d rest (end_ + 1) (end_ + 1) r.2
    else cmd_exec_scan w paths cmd d rest start (end_ + 1) s

/-- The function `cmd_exec`. -/
def cmd_exec (w : World) (tokens : List String) (s : Sys) : Int × Sys :=
  let s := s.emit
    (Call.printf "the parent pid is %d and pgrp ID is %d\n" [PArg.int s.pid, PArg.int s.pgrp])
  let cmd := tokens_get_token tokens 0
  let d := cmd_exec_parse tokens
  let s := s.emit (Call.access cmd)
  if sys_access w cmd then (-1, cmd_exec_direct w cmd d s)
  else
    let s := s.emit (Call.getenv "PATH")
    cmd_exec_scan w w.PATH.toList cmd d w.PATH.toList 0 0 s

/-! ## Reference functions used to state the properties -/

/-- The `PATH` loop of `cmd_exec` over a list of directory strings already cut
out: `cmd_exec2` on each in turn, stopping with 0 at the first that returns 0,
and -1 when all have been tried. -/
def search_dirs (w : World) (cmd : Option String) (d : CmdDescr) :
    List String → Sys → Int × Sys
  | [], s => (-1, s)
  | path :: rest, s =>
    let r := cmd_exec2 w path cmd d.args d.filename d.direction s
    if r.1 = 0 then (0, r.2) else search_dirs w cmd d rest r.2

/-- The directory strings of a complete run of the `PATH` loop, given the
characters `cur` of the segment under way and the characters `rest` still to
be scanned: a segment closed by `:` is handed over as it is, the segment that
ends `PATH` is handed over followed by the residue. -/
def path_dirs_from (residue : List Char) : List Char → List Char → List String
  | cur, [] => [String.mk (cur ++ residue)]
  | cur, c :: rest =>
    if c = ':' then String.mk cur :: path_dirs_from residue [] rest
    else path_dirs_from residue (cur ++ [c]) rest

/-- `PATH` split on `:`, every segment but the last as it is and the last one
followed by the residue. -/
def path_dirs (residue : List Char) (paths : List Char) : List String :=
  ((paths.splitOn ':').dropLast.map String.mk) ++
    [String.mk (((paths.splitOn ':').getLast?).getD [] ++ residue)]

/-- The directory strings `cmd_exec2` was entered with, read off its first
statement `printf("direcotry: %s, cmd: %s\n", path, name)`. -/
def dirs_passed (t : List Call) : List (Option String) :=
  t.filterMap (fun c =>
    match c with
    | Call.printf "direcotry: %s, cmd: %s\n" [PArg.str path, _] => some path
    | _ => none)

/-- The path a child program hands to `execv`. -/
def exec_target : List ChildOp → Option String
  | [] => none
  | ChildOp.execv path _ :: _ => path
  | _ :: rest => exec_target rest

/-- The executable paths of the forks in a trace, in order. -/
def launched_paths (t : List Call) : List (Option String) :=
  t.filterMap (fun c =>
    match c with
    | Call.fork child _ => some (exec_target child)
    | _ => none)

/-- The files `path/name` for the entries of directory `path` equal to `name`,
in the order `readdir` yields them; none when the directory cannot be opened. -/
def dir_candidates (w : World) (name : String) (path : String) : List String :=
  match w.dir_entries path with
  | none => []
  | some entries => (entries.filter (fun e => decide (name = e))).map (fun e => path ++ "/" ++ e)

/-- The candidate files of a list of directories, directory by directory in
the order of the list. -/
def candidates (w : World) (name : String) (dirs : List String) : List String :=
  dirs.flatMap (dir_candidates w name)

/-- Whether one of the launches number `n`, `n + 1`, ... of the candidates is
followed by wait status 0. -/
def found_zero (status : Nat → Int) : Nat → List String → Bool
  | _, [] => false
  | n, _ :: cs => decide (status n = 0) || found_zero status (n + 1) cs

/-- The candidates that get launched when launch number `n`, `n + 1`, ... is
followed by the wait status `status n`, `status (n + 1)`, ...: every candidate
up to and including the first whose wait status is 0. -/
def launched_until_zero (status : Nat → Int) : Nat → List String → List String
  | _, [] => []
  | n, c :: cs => if status n = 0 then [c] else c :: launched_until_zero status (n + 1) cs

/-- The calls `cmd_exec` can make for the command name `cmd` and the
descriptor `d`, on the directly accessible branch (`direct = true`) and on the
`PATH` search branch (`direct = false`). -/
inductive CmdExecCall (cmd : Option String) (d : CmdDescr) (direct : Bool) : Call → Prop where
  | printf (f : String) (a : List PArg) : CmdExecCall cmd d direct (Call.printf f a)
  | access (p : Option String) : CmdExecCall cmd d direct (Call.access p)
  | fork_direct (ret : Int) : direct = true →
      CmdExecCall cmd d direct (Call.fork (cmd_exec_child cmd d) ret)
  | setpgid (a b : Int) : direct = true → d.background = 0 →
      CmdExecCall cmd d direct (Call.setpgid a b)
  | signal (h : SigHandler) : direct = true → d.background = 0 →
      CmdExecCall cmd d direct (Call.signal_SIGTTOU h)
  | tcsetpgrp (g : Int) : direct = true → d.background = 0 →
      CmdExecCall cmd d direct (Call.tcsetpgrp 0 g)
  | wait_direct (st : Int) : direct = true → d.background = 0 →
      CmdExecCall cmd d direct (Call.wait st)
  | getenv (n : String) : direct = false → CmdExecCall cmd d direct (Call.getenv n)
  | opendir (p : String) : direct = false → CmdExecCall cmd d direct (Call.opendir p)
  | perror (f : String) (a : List PArg) : direct = false →
      CmdExecCall cmd d direct (Call.perror f a)
  | closedir : direct = false → CmdExecCall cmd d direct Call.closedir
  | fork_search (p e : String) (ret : Int) : direct = false →
      CmdExecCall cmd d direct
        (Call.fork (cmd_exec2_child p e d.args d.filename d.direction) ret)
  | wait_search (st : Int) : direct = false → CmdExecCall cmd d direct (Call.wait st)

/-- The property of a call: when it is a `fork`, its child satisfies `Q`. -/
def ForkAll (Q : List ChildOp → Prop) (c : Call) : Prop :=
  ∀ child ret, c = Call.fork child ret → Q child

/-- The state `s'` is reached from `s` by calls that all satisfy `P`. -/
def Extends (P : Call → Prop) (s s' : Sys) : Prop :=
  ∃ new, s'.trace = s.trace ++ new ∧ ∀ c ∈ new, P c

/-! ## The file operations of a child (POSIX `open`, `dup2`, `close`) -/

/-- A regular file: permission bits and contents. -/
structure File where
  mode : Nat
  data : String
  deriving DecidableEq, Repr

/-- A child between `fork` and `execv`: the file system, the file behind the
descriptor `fd` returned by `open` (`none` after a failed `open` or a `close`),
the files descriptors 0 and 1 were redirected to, and the program image
requested by `execv`. -/
structure ChildState where
  fs : String → Option File
  fd : Option String
  fd0 : Option String
  fd1 : Option String
  image : Option (Option String × List (Option String))

/-- The effect of `open(pathname, flags, mode)` on the file system and the file
the new descriptor refers to: an existing file is emptied only under
`O_TRUNC` with write access, a missing file is created empty with the given
mode only under `O_CREAT`.  Access rights and the process umask are left out:
an `open` of an existing file succeeds and a created file gets `mode` as its
permission bits. -/
def open_file (fs : String → Option File) (pathname : Option String) (flags : List OFlag)
    (mode : Option Nat) : (String → Option File) × Option String :=
  match pathname with
  | none => (fs, none)
  | some p =>
    match fs p with
    | some f =>
      if OFlag.O_TRUNC ∈ flags ∧ OFlag.O_WRONLY ∈ flags then
        (Function.update fs p (some { f with data := "" }), some p)
      else (fs, some p)
    | none =>
      if OFlag.O_CREAT ∈ flags then (Function.update fs p (some ⟨mode.getD 0, ""⟩), some p)
      else (fs, none)

/-- One operation of a child. -/
def child_step (st : ChildState) : ChildOp → ChildState
  | ChildOp.printf _ => st
  | ChildOp.open_ pathname flags mode =>
    { st with fs := (open_file st.fs pathname flags mode).1,
              fd := (open_file st.fs pathname flags mode).2 }
  | ChildOp.dup2 newfd =>
    match st.fd with
    | none => st
    | some f => if newfd = 0 then { st with fd0 := some f }
                else if newfd = 1 then { st with fd1 := some f } else st
  | ChildOp.close => { st with fd := none }
  | ChildOp.execv path argv => { st with image := some (path, argv) }

/-- The operations of a child in order. -/
def child_run (st : ChildState) (ops : List ChildOp) : ChildState := ops.foldl child_step st

/-- The child program of a launch with output redirection, up to the program
path: `open` of the target with `O_CREAT | O_WRONLY` and mode 0644, `dup2` onto
descriptor 1, `close`, `execv` with the argument vector; before them only
`printf` calls. -/
def output_child (d : CmdDescr) (child : List ChildOp) : Prop :=
  ∃ pre path, child = pre ++
      [ChildOp.open_ d.filename [OFlag.O_CREAT, OFlag.O_WRONLY] (some 0o644), ChildOp.dup2 1,
       ChildOp.close, ChildOp.execv path d.args] ∧
    ∀ op ∈ pre, ∃ fmt, op = ChildOp.printf fmt

/-! ## A concrete environment for evaluating the functions -/

/-- A machine where `/bin/ls` exists, `/usr/bin` and `/bin` both hold `ls`,
`/a` and `/b` both hold `prog`, forks succeed, every wait reports status 0
except the first, which reports 256 (the child ran and exited with code 1),
and memory never written reads as the empty string. -/
def demo_world : World :=
  { file_exists := fun p => decide (p = "/bin/ls"),
    PATH := "/usr/bin:/bin",
    HOME := some "/root",
    dir_entries := fun p =>
      if p = "/usr/bin" then some ["env", "ls"]
      else if p = "/bin" then some ["ls", "sh"]
      else if p = "/a" then some ["prog"]
      else if p = "/b" then some ["prog"]
      else none,
    is_dir := fun p => decide (p = "/root") || decide (p = "/tmp"),
    isatty := true,
    fork_child := fun n => some (100 + n),
    setpgid_ok := fun _ => true,
    wait_status := fun n => if n = 0 then 256 else 0,
    residue := [],
    overflow_aborts := false }

/-- The demo machine with `PATH=/a:/b`. -/
def demo_world_ab : World := { demo_world with PATH := "/a:/b" }

/-- The demo machine on a run where the bytes after the written part of an
unterminated buffer read as `/bin`. -/
def demo_world_residue : World := { demo_world with residue := "/bin".toList }

/-- A shell with pid 10 that leads its own process group and owns the
terminal, in directory `/`, before any call. -/
def demo_sys : Sys :=
  { pid := 10, pgrp := 10, shell_pgid := 10, child_groups := [], fg := 10,
    sigttou := SigHandler.SIG_DFL, cwd := "/", nfork := 0, nwait := 0, trace := [] }

/-- The demo machine on a build that catches writes past the end of a buffer. -/
def demo_world_checked : World := { demo_world with overflow_aborts := true }

/-- A child about to run on a file system whose only file is `out`. -/
def demo_child : ChildState :=
  { fs := fun p => if p = "out" then some ⟨0o600, "old contents"⟩ else none,
    fd := none, fd0 := none, fd1 := none, image := none }

/-! ## Sanity checks of the embedding on concrete inputs -/

example : cmd_exec_parse ["cat", "<", "in.txt"] = ⟨[some "cat", none], some "in.txt", -1, 0⟩ := by
  decide
example : cmd_exec_parse ["ls", "-l", ">", "out", "&"] =
    ⟨[some "ls", some "-l", none], some "out", 1, 1⟩ := by decide
example : cmd_exec_parse [] = ⟨[none], none, 0, 0⟩ := by decide
example : lookup (some "cd") = 2 := by decide
example : lookup (some "execv") = 4 := by decide
example : lookup none = 4 := by decide

/-! ## Lists and indices -/

theorem range_map_getElem (l : List String) (n : Nat) (h : n ≤ l.length) :
    (List.range n).map (fun i => tokens_get_token l i) = (l.take n).map some := by
  apply List.ext_getElem?
  intro i
  simp only [tokens_get_token, List.getElem?_map, List.getElem?_range, List.getElem?_take]
  by_cases hi : i < n
  · have hl : i < l.length := by omega
    simp [List.getElem?_range, hi, List.getElem?_eq_getElem hl]
  · have hn : n ≤ i := by omega
    simp [List.getElem?_range, hi, hn]

/-! ## Builtin table -/

/-- C4, the claim as stated fails: `ls` is the name of no table entry, yet the
value `lookup` returns for it is a valid index of `cmd_table`. -/
theorem lookup_not_found_is_valid_index :
    (∀ e ∈ cmd_table, e.cmd ≠ "ls") ∧
    ∃ i : Nat, i < cmd_table.length ∧ lookup (some "ls") = (i : Int) := by
  refine ⟨by decide, 4, by decide, by decide⟩

/-- C4, amended: `lookup` returns the index of the table entry whose name is
exactly the given one when there is such an entry; for any other name, and for
an absent name, it returns the index of the last entry of the table (the
`execv` entry), a valid index, so that `main` hands the line to `cmd_exec`. -/
theorem lookup_spec (cmd : Option String) :
    (∀ (i : Nat) (e : fun_desc_t),
        cmd_table[i]? = some e → cmd = some e.cmd → lookup cmd = (i : Int)) ∧
    ((∀ e ∈ cmd_table, cmd ≠ some e.cmd) →
        lookup cmd = ((cmd_table.length - 1 : Nat) : Int) ∧
        ∀ tokens, tokens_get_token tokens 0 = cmd →
          main_dispatch tokens = some CmdFun.cmd_exec) := by
  constructor
  · intro i e he hc
    have h5 : i < 5 := by
      have := (List.getElem?_eq_some_iff.mp he).1
      simpa [cmd_table] using this
    subst hc
    interval_cases i <;> simp [cmd_table] at he <;> subst he <;> decide
  · intro hne
    cases cmd with
    | none =>
      refine ⟨by decide, ?_⟩
      intro tokens ht
      simp only [main_dispatch, ht]
      decide
    | some c =>
      have h0 : ¬ ("?" = c) := fun h => hne ⟨CmdFun.cmd_help, "?", "show this help menu"⟩
        (by simp [cmd_table]) (by simp [h])
      have h1 : ¬ ("exit" = c) := fun h => hne ⟨CmdFun.cmd_exit, "exit", "exit the command shell"⟩
        (by simp [cmd_table]) (by simp [h])
      have h2 : ¬ ("cd" = c) := fun h => hne ⟨CmdFun.cmd_chdir, "cd", "change the current directory"⟩
        (by simp [cmd_table]) (by simp [h])
      have h3 : ¬ ("pwd" = c) := fun h => hne ⟨CmdFun.cmd_pwd, "pwd", "print the working directory"⟩
        (by simp [cmd_table]) (by simp [h])
      have hl : lookup (some c) = 4 := by
        simp [lookup, lookup_test, cmd_table, List.range_succ, List.find?, h0, h1, h2, h3]
      refine ⟨by rw [hl]; decide, ?_⟩
      intro tokens ht
      simp only [main_dispatch, ht, hl]
      decide

/-- The claim C4 amended, applied to the name `pwd` (index 3) and to `ls`. -/
theorem lookup_spec_witness :
    lookup (some "pwd") = 3 ∧ lookup (some "ls") = 4 := by
  refine ⟨(lookup_spec (some "pwd")).1 3 ⟨CmdFun.cmd_pwd, "pwd", "print the working directory"⟩
    (by decide) (by decide), ?_⟩
  exact ((lookup_spec (some "ls")).2 (by decide)).1

/-! ## The trailing-token parser -/

theorem getElem_append_two_fst (pre post : List String) (a b : String) :
    tokens_get_token (pre ++ a :: b :: post) pre.length = some a := by
  induction pre with
  | nil => simp [tokens_get_token]
  | cons x xs ih => simpa [tokens_get_token] using ih

theorem getElem_append_two_snd (pre post : List String) (a b : String) :
    tokens_get_token (pre ++ a :: b :: post) (pre.length + 1) = some b := by
  induction pre with
  | nil => simp [tokens_get_token]
  | cons x xs ih => simpa [tokens_get_token] using ih

theorem tokens_split_at (tokens : List String) (k : Nat) (h : k + 2 ≤ tokens.length) :
    ∃ a b, tokens = tokens.take k ++ a :: b :: tokens.drop (k + 2) ∧
      tokens_get_token tokens k = some a ∧ tokens_get_token tokens (k + 1) = some b := by
  have h0 : k < tokens.length := by omega
  have h1 : k + 1 < tokens.length := by omega
  refine ⟨tokens[k], tokens[k + 1], ?_, ?_, ?_⟩
  · have e1 : tokens.drop k = tokens[k] :: tokens.drop (k + 1) := List.drop_eq_getElem_cons h0
    have e2 : tokens.drop (k + 1) = tokens[k + 1] :: tokens.drop (k + 2) :=
      List.drop_eq_getElem_cons h1
    calc tokens = tokens.take k ++ tokens.drop k := (List.take_append_drop k tokens).symm
      _ = tokens.take k ++ tokens[k] :: tokens[k + 1] :: tokens.drop (k + 2) := by rw [e1, e2]
  · simp [tokens_get_token, List.getElem?_eq_getElem h0]
  · simp [tokens_get_token, List.getElem?_eq_getElem h1]

/-- The redirection step on a sequence of the shape `pre ++ op :: target :: post`
entered with `len = |pre| + 2`. -/
theorem redir_shape (pre post : List String) (op target : String) (bg : Int)
    (hpre : pre ≠ []) (hop : op = "<" ∨ op = ">") :
    cmd_exec_redir (pre ++ op :: target :: post) ((pre.length : Int) + 2) bg =
      ⟨pre.map some ++ [none], some target, if op = "<" then -1 else 1, bg⟩ := by
  have hlen : 0 < pre.length := List.length_pos.mpr hpre
  have e1 : ((pre.length : Int) + 2 - 1).toNat = pre.length + 1 := by omega
  have e2 : ((pre.length : Int) + 2 - 2).toNat = pre.length := by omega
  have hpos : (pre.length : Int) + 2 - 2 > 0 := by omega
  have hr := range_map_getElem (pre ++ op :: target :: post) pre.length (by simp)
  simp only [cmd_exec_redir, e1, e2, getElem_append_two_fst, getElem_append_two_snd]
  rcases hop with h | h <;> subst h <;> simp [hpos, hr, hpre]

/-- The redirection step when the test for an operator fails. -/
theorem redir_none (tokens : List String) (n : Nat) (bg : Int) (hn : n ≤ tokens.length)
    (h : ¬ (2 < n ∧ (tokens_get_token tokens (n - 2) = some "<" ∨
                     tokens_get_token tokens (n - 2) = some ">"))) :
    cmd_exec_redir tokens (n : Int) bg = ⟨(tokens.take n).map some ++ [none], none, 0, bg⟩ := by
  have e2 : ((n : Int) - 2).toNat = n - 2 := by omega
  have hr := range_map_getElem tokens n hn
  have hc : (decide ((n : Int) - 2 > 0) &&
      (decide (tokens_get_token tokens (n - 2) = some "<") ||
       decide (tokens_get_token tokens (n - 2) = some ">"))) = false := by
    by_cases h2 : 2 < n
    · have h3 : ¬ (tokens_get_token tokens (n - 2) = some "<" ∨
                   tokens_get_token tokens (n - 2) = some ">") := fun hh => h ⟨h2, hh⟩
      simp only [not_or] at h3
      simp [h3.1, h3.2]
    · have : ¬ ((n : Int) - 2 > 0) := by omega
      simp [this]
  simp only [cmd_exec_redir, e2, hc, Bool.false_eq_true, if_false, if_true, Int.toNat_ofNat, hr]

/-- Every outcome of the redirection step is one of the two shapes. -/
theorem redir_cases (tokens : List String) (n : Nat) (bg : Int) (hn : n ≤ tokens.length) :
    cmd_exec_redir tokens (n : Int) bg = ⟨(tokens.take n).map some ++ [none], none, 0, bg⟩ ∨
    ∃ pre op target post, tokens = pre ++ op :: target :: post ∧ pre ≠ [] ∧
      pre.length + 2 = n ∧ (op = "<" ∨ op = ">") ∧
      cmd_exec_redir tokens (n : Int) bg =
        ⟨pre.map some ++ [none], some target, if op = "<" then -1 else 1, bg⟩ := by
  by_cases h : 2 < n ∧ (tokens_get_token tokens (n - 2) = some "<" ∨
                        tokens_get_token tokens (n - 2) = some ">")
  · right
    obtain ⟨h2, hs⟩ := h
    obtain ⟨a, b, hsplit, ha, _⟩ := tokens_split_at tokens (n - 2) (by omega)
    have hop : a = "<" ∨ a = ">" := by
      rw [ha] at hs
      simpa using hs
    have hl : (tokens.take (n - 2)).length = n - 2 := by
      rw [List.length_take]; omega
    have hpre : tokens.take (n - 2) ≠ [] := by
      intro h0
      rw [h0] at hl
      simp at hl
      omega
    refine ⟨tokens.take (n - 2), a, b, tokens.drop (n - 2 + 2), hsplit, hpre, by omega, hop, ?_⟩
    have hcast : (n : Int) = ((tokens.take (n - 2)).length : Int) + 2 := by
      rw [hl]; omega
    have := redir_shape (tokens.take (n - 2)) (tokens.drop (n - 2 + 2)) a b bg hpre hop
    rw [← hsplit, ← hcast] at this
    exact this
  · left
    exact redir_none tokens n bg hn h

theorem is_background_concat (init : List String) :
    is_background (init ++ ["&"]) ((tokens_get_length (init ++ ["&"]) : Nat) : Int) = true := by
  have e : (((init.length + 1 : Nat) : Int) - 1).toNat = init.length := by omega
  have hg : tokens_get_token (init ++ ["&"]) init.length = some "&" := by
    simp [tokens_get_token]
  have hpos : ((init.length + 1 : Nat) : Int) > 0 := by omega
  simp only [is_background, tokens_get_length, List.length_append, List.length_singleton, e, hg]
  simp [hpos]

theorem is_background_iff (tokens : List String) :
    is_background tokens ((tokens_get_length tokens : Nat) : Int) = true ↔
      tokens.getLast? = some "&" := by
  rcases List.eq_nil_or_concat tokens with h | ⟨init, x, h⟩
  · subst h
    simp [is_background, tokens_get_length]
  · rw [List.concat_eq_append] at h
    subst h
    have e : (((init.length + 1 : Nat) : Int) - 1).toNat = init.length := by omega
    have hg : tokens_get_token (init ++ [x]) init.length = some x := by
      simp [tokens_get_token]
    have hpos : ((init.length + 1 : Nat) : Int) > 0 := by omega
    simp only [is_background, tokens_get_length, List.length_append, List.length_singleton, e]
    rw [hg]
    simp [hpos]

/-- The parser on a sequence with a trailing `&`. -/
theorem parse_concat_amp (init : List String) :
    cmd_exec_parse (init ++ ["&"]) = cmd_exec_redir (init ++ ["&"]) (init.length : Int) 1 := by
  have hb := is_background_concat init
  have e : ((tokens_get_length (init ++ ["&"]) : Nat) : Int) - 1 = (init.length : Int) := by
    simp [tokens_get_length]
  simp only [cmd_exec_parse, hb, if_true, e]

/-- The parser on a sequence without a trailing `&`. -/
theorem parse_no_amp (tokens : List String) (h : tokens.getLast? ≠ some "&") :
    cmd_exec_parse tokens = cmd_exec_redir tokens (tokens.length : Int) 0 := by
  have hb : is_background tokens ((tokens_get_length tokens : Nat) : Int) = false := by
    rw [← Bool.not_eq_true, is_background_iff]
    exact h
  simp only [tokens_get_length] at hb
  simp only [cmd_exec_parse, tokens_get_length, hb, Bool.false_eq_true, if_false]

/-- Every token sequence splits as `body ++ redir ++ amp`, where `amp` is the
trailing `&` that set `background`, `redir` is the operator and target that
set `direction` and `filename`, and `body` is what was copied to `args`. -/
theorem parse_shapes (tokens : List String) :
    ∃ body redir amp : List String, tokens = body ++ redir ++ amp ∧
      (cmd_exec_parse tokens).args = body.map some ++ [none] ∧
      ((amp = [] ∧ (cmd_exec_parse tokens).background = 0 ∧ tokens.getLast? ≠ some "&") ∨
       (amp = ["&"] ∧ (cmd_exec_parse tokens).background = 1)) ∧
      ((redir = [] ∧ (cmd_exec_parse tokens).direction = 0 ∧
          (cmd_exec_parse tokens).filename = none) ∨
       (∃ op target, redir = [op, target] ∧ body ≠ [] ∧
          ((op = "<" ∧ (cmd_exec_parse tokens).direction = -1) ∨
           (op = ">" ∧ (cmd_exec_parse tokens).direction = 1)) ∧
          (cmd_exec_parse tokens).filename = some target)) := by
  by_cases h : tokens.getLast? = some "&"
  · obtain ⟨init, rfl⟩ := List.getLast?_eq_some_iff.mp h
    rw [parse_concat_amp]
    rcases redir_cases (init ++ ["&"]) init.length 1 (by simp) with hc | hc
    · refine ⟨init, [], ["&"], by simp, ?_, Or.inr ⟨rfl, ?_⟩, Or.inl ⟨rfl, ?_, ?_⟩⟩ <;>
        simp [hc, List.take_left']
    · obtain ⟨pre, op, target, post, hsplit, hpre, hlen, hop, hd⟩ := hc
      have hsplit2 : init ++ ["&"] = (pre ++ [op, target]) ++ post := by
        rw [hsplit]; simp
      have hinj := List.append_inj hsplit2 (by simp; omega)
      refine ⟨pre, [op, target], ["&"], ?_, ?_, Or.inr ⟨rfl, ?_⟩,
        Or.inr ⟨op, target, rfl, hpre, ?_, ?_⟩⟩
      · rw [hinj.1]
      · rw [hd]
      · rw [hd]
      · rcases hop with ho | ho <;> subst ho <;> simp [hd]
      · rw [hd]
  · rw [parse_no_amp tokens h]
    rcases redir_cases tokens tokens.length 0 le_rfl with hc | hc
    · refine ⟨tokens, [], [], by simp, ?_, Or.inl ⟨rfl, ?_, h⟩, Or.inl ⟨rfl, ?_, ?_⟩⟩ <;>
        simp [hc]
    · obtain ⟨pre, op, target, post, hsplit, hpre, hlen, hop, hd⟩ := hc
      have hpost : post = [] := by
        have := congrArg List.length hsplit
        simp at this
        apply List.eq_nil_of_length_eq_zero
        omega
      subst hpost
      refine ⟨pre, [op, target], [], ?_, ?_, Or.inl ⟨rfl, ?_, h⟩,
        Or.inr ⟨op, target, rfl, hpre, ?_, ?_⟩⟩
      · rw [hsplit]; simp
      · rw [hd]
      · rw [hd]
      · rcases hop with ho | ho <;> subst ho <;> simp [hd]
      · rw [hd]

/-- C1, the claim as stated fails: the two-token sequence `<` `in.txt` ends in
an operator followed by a target, yet no redirection is recorded and both
tokens stay in the argument vector.  And in `cat < &` the token after the
operator is taken as the background marker, not as a target. -/
theorem redirection_needs_command :
    cmd_exec_parse ["<", "in.txt"] = ⟨[some "<", some "in.txt", none], none, 0, 0⟩ ∧
    cmd_exec_parse ["cat", "<", "&"] = ⟨[some "cat", some "<", none], none, 0, 1⟩ := by
  decide

/-- C1, amended: for every token sequence that ends in a redirection operator
`<` or `>` followed by a target, with or without a trailing `&` after the
target, and with at least one token before the operator (the target not being
the `&` marker itself when no `&` follows it), the argument vector is exactly
the tokens before the operator followed by NULL, the file name is the target,
and the direction is -1 for `<` and 1 for `>`. -/
theorem parse_redirection (pre : List String) (op target : String) (amp : Bool)
    (hpre : pre ≠ []) (hop : op = "<" ∨ op = ">") (ht : amp = false → target ≠ "&") :
    cmd_exec_parse (pre ++ [op, target] ++ (if amp then ["&"] else [])) =
      ⟨pre.map some ++ [none], some target, if op = "<" then -1 else 1,
        if amp then 1 else 0⟩ := by
  cases amp with
  | true =>
    have h := parse_concat_amp (pre ++ [op, target])
    have hs := redir_shape pre ["&"] op target 1 hpre hop
    simp only [List.length_append, List.length_cons, List.length_nil, List.append_assoc,
      List.cons_append, List.nil_append, Nat.cast_add, Nat.cast_ofNat, Nat.cast_one,
      Nat.cast_zero, zero_add] at h
    have e : (pre.length : Int) + (1 + 1) = (pre.length : Int) + 2 := by omega
    rw [e] at h
    simpa [h] using hs
  | false =>
    have hl : (pre ++ [op, target]).getLast? ≠ some "&" := by
      have : (pre ++ [op, target]).getLast? = some target := by
        have := List.getLast?_concat (a := target) (pre ++ [op])
        simp
      rw [this]
      intro hh
      exact ht rfl (Option.some.inj hh)
    have h := parse_no_amp (pre ++ [op, target]) hl
    have hs := redir_shape pre [] op target 0 hpre hop
    simp only [List.length_append, List.length_cons, List.length_nil, Nat.cast_add,
      Nat.cast_ofNat, Nat.cast_one, Nat.cast_zero, zero_add] at h
    have e : (pre.length : Int) + (1 + 1) = (pre.length : Int) + 2 := by omega
    rw [e] at h
    simpa [h] using hs

/-- The claim C1 amended at `cat < in.txt`. -/
theorem parse_redirection_witness :
    cmd_exec_parse ["cat", "<", "in.txt"] = ⟨[some "cat", none], some "in.txt", -1, 0⟩ :=
  parse_redirection ["cat"] "<" "in.txt" false (by decide) (Or.inl rfl) (fun _ => by decide)

/-- C2, the claim as stated fails: the last token of `echo & &` is `&` and the
background flag is set, yet `&` is an element of the argument vector. -/
theorem inner_amp_stays_in_args :
    ["echo", "&", "&"].getLast? = some "&" ∧
    (cmd_exec_parse ["echo", "&", "&"]).background = 1 ∧
    some "&" ∈ (cmd_exec_parse ["echo", "&", "&"]).args := by
  decide

/-- C2, amended: for every token sequence whose last token is exactly `&`,
the background flag is 1 and the trailing `&` is not copied: the argument
vector is an initial run of the tokens before that `&`, followed by NULL.
An `&` that is not the last token is an ordinary argument, so no element of
the argument vector is `&` when no earlier token is `&`. -/
theorem parse_background (tokens : List String) (h : tokens.getLast? = some "&") :
    (cmd_exec_parse tokens).background = 1 ∧
    (∃ k, k ≤ tokens.dropLast.length ∧
      (cmd_exec_parse tokens).args = (tokens.dropLast.take k).map some ++ [none]) ∧
    ((∀ t ∈ tokens.dropLast, t ≠ "&") → some "&" ∉ (cmd_exec_parse tokens).args) := by
  obtain ⟨body, redir, amp, hsplit, hargs, hamp, _⟩ := parse_shapes tokens
  rcases hamp with ⟨_, _, hne⟩ | ⟨hamp, hbg⟩
  · exact absurd h hne
  · subst hamp
    have hdl : tokens.dropLast = body ++ redir := by
      rw [hsplit, List.dropLast_concat]
    have htake : (body ++ redir).take body.length = body := List.take_left' rfl
    refine ⟨hbg, ⟨body.length, ?_, ?_⟩, ?_⟩
    · rw [hdl]; simp
    · rw [hargs, hdl, htake]
    · intro hall hmem
      rw [hargs] at hmem
      simp only [List.mem_append, List.mem_map, List.mem_singleton] at hmem
      rcases hmem with ⟨t, ht, hte⟩ | hmem
      · have : t = "&" := Option.some.inj hte
        exact hall t (by rw [hdl]; exact List.mem_append_left _ ht) this
      · exact absurd hmem (by simp)

/-- The claim C2 amended at `sleep 5 &`. -/
theorem parse_background_witness :
    (cmd_exec_parse ["sleep", "5", "&"]).background = 1 ∧
    some "&" ∉ (cmd_exec_parse ["sleep", "5", "&"]).args :=
  ⟨(parse_background ["sleep", "5", "&"] (by decide)).1,
   (parse_background ["sleep", "5", "&"] (by decide)).2.2 (by decide)⟩

/-- The argument vector in terms of the descriptor's own flags: with `n` the
number of tokens minus 1 if `background` is 1 and minus 2 if `direction` is
not 0, it has `n + 1` elements, element `i` is token `i` for `i < n`, element
`n` is NULL, and the tokens left out are the recorded operator with its target
and the trailing `&`. -/
theorem parse_args_vector_flags (tokens : List String) :
    (cmd_exec_parse tokens).args.length =
      tokens.length - (if (cmd_exec_parse tokens).background = 1 then 1 else 0) -
        (if (cmd_exec_parse tokens).direction ≠ 0 then 2 else 0) + 1 ∧
    (∀ i, i < tokens.length - (if (cmd_exec_parse tokens).background = 1 then 1 else 0) -
        (if (cmd_exec_parse tokens).direction ≠ 0 then 2 else 0) →
      ∃ t, tokens[i]? = some t ∧ (cmd_exec_parse tokens).args[i]? = some (some t)) ∧
    (cmd_exec_parse tokens).args[tokens.length -
        (if (cmd_exec_parse tokens).background = 1 then 1 else 0) -
        (if (cmd_exec_parse tokens).direction ≠ 0 then 2 else 0)]? = some none ∧
    ((cmd_exec_parse tokens).background = 1 ↔ tokens.getLast? = some "&") ∧
    ((cmd_exec_parse tokens).background = 0 ∨ (cmd_exec_parse tokens).background = 1) ∧
    (tokens.drop (tokens.length - (if (cmd_exec_parse tokens).background = 1 then 1 else 0) -
        (if (cmd_exec_parse tokens).direction ≠ 0 then 2 else 0))).map some =
      (if (cmd_exec_parse tokens).direction = 0 then []
       else [some (if (cmd_exec_parse tokens).direction = -1 then "<" else ">"),
             (cmd_exec_parse tokens).filename])
        ++ (if (cmd_exec_parse tokens).background = 1 then [some "&"] else []) := by
  generalize hd : cmd_exec_parse tokens = d
  generalize hal0 : tokens.length - (if d.background = 1 then 1 else 0) -
      (if d.direction ≠ 0 then 2 else 0) = args_length
  subst hd
  set d := cmd_exec_parse tokens with hdd
  obtain ⟨body, redir, amp, hsplit, hargs, hamp, hredir⟩ := parse_shapes tokens
  have hal : args_length = body.length := by
    have hlen : tokens.length = body.length + redir.length + amp.length := by
      rw [hsplit]; simp [Nat.add_assoc]
    rw [← hal0]
    show tokens.length - (if (cmd_exec_parse tokens).background = 1 then 1 else 0) -
      (if (cmd_exec_parse tokens).direction ≠ 0 then 2 else 0) = body.length
    rcases hamp with ⟨ha, hb, _⟩ | ⟨ha, hb⟩ <;>
      rcases hredir with ⟨hr, hd, _⟩ | ⟨op, target, hr, _, hd, _⟩ <;>
      subst ha <;> subst hr
    · simp [hb, hd] at hlen ⊢; omega
    · rcases hd with ⟨_, hd⟩ | ⟨_, hd⟩ <;> simp [hb, hd] at hlen ⊢ <;> omega
    · simp [hb, hd] at hlen ⊢; omega
    · rcases hd with ⟨_, hd⟩ | ⟨_, hd⟩ <;> simp [hb, hd] at hlen ⊢ <;> omega
  have hdargs : d.args = body.map some ++ [none] := hargs
  rw [hal]
  refine ⟨by rw [hdargs]; simp, ?_, ?_, ?_, ?_, ?_⟩
  · intro i hi
    refine ⟨body[i], ?_, ?_⟩
    · rw [hsplit, List.append_assoc, List.getElem?_append_left hi, List.getElem?_eq_getElem hi]
    · rw [hdargs, List.getElem?_append_left (by simpa using hi)]
      simp [List.getElem?_eq_getElem hi]
  · rw [hdargs]
    have : (body.map some).length = body.length := by simp
    rw [List.getElem?_append_right (by omega)]
    simp
  · rcases hamp with ⟨_, hb, hne⟩ | ⟨ha, hb⟩
    · constructor
      · intro h1
        have : d.background = 0 := hb
        omega
      · intro h1; exact absurd h1 hne
    · constructor
      · intro _
        rw [hsplit, ha]
        exact List.getLast?_concat _
      · intro _; exact hb
  · rcases hamp with ⟨_, hb, _⟩ | ⟨_, hb⟩
    · exact Or.inl hb
    · exact Or.inr hb
  · have hdrop : tokens.drop body.length = redir ++ amp := by
      rw [hsplit, List.append_assoc]
      exact List.drop_left' rfl
    rw [hdrop]
    have hb1 : d.background = (cmd_exec_parse tokens).background := rfl
    have hd1 : d.direction = (cmd_exec_parse tokens).direction := rfl
    have hf1 : d.filename = (cmd_exec_parse tokens).filename := rfl
    rcases hamp with ⟨ha, hb, _⟩ | ⟨ha, hb⟩ <;>
      rcases hredir with ⟨hr, hd, _⟩ | ⟨op, target, hr, _, hd, hf⟩ <;>
      subst ha <;> subst hr
    · simp [hb1, hd1, hb, hd]
    · rcases hd with ⟨ho, hd⟩ | ⟨ho, hd⟩ <;> subst ho <;> simp [hb1, hd1, hf1, hb, hd, hf]
    · simp [hb1, hd1, hb, hd]
    · rcases hd with ⟨ho, hd⟩ | ⟨ho, hd⟩ <;> subst ho <;> simp [hb1, hd1, hf1, hb, hd, hf]

theorem redir_direction (tokens : List String) (n : Nat) (bg : Int) :
    (cmd_exec_redir tokens (n : Int) bg).direction ≠ 0 ↔
      (2 < n ∧ (tokens_get_token tokens (n - 2) = some "<" ∨
                tokens_get_token tokens (n - 2) = some ">")) := by
  have e2 : ((n : Int) - 2).toNat = n - 2 := by omega
  have hpos : ((n : Int) - 2 > 0) ↔ 2 < n := by omega
  simp only [cmd_exec_redir, e2]
  by_cases h2 : 2 < n
  · have hp : (n : Int) - 2 > 0 := hpos.mpr h2
    by_cases hl : tokens_get_token tokens (n - 2) = some "<"
    · simp [hp, h2, hl]
    · by_cases hg : tokens_get_token tokens (n - 2) = some ">"
      · simp [hp, h2, hl, hg]
      · simp [hp, h2, hl, hg]
  · have hp : ¬ ((n : Int) - 2 > 0) := fun h => h2 (hpos.mp h)
    simp [hp, h2]

theorem has_trailing_amp_concat (init : List String) :
    has_trailing_amp (init ++ ["&"]) = true ∧ without_amp (init ++ ["&"]) = init := by
  have h : has_trailing_amp (init ++ ["&"]) = true := by
    simp [has_trailing_amp]
  exact ⟨h, by simp [without_amp, h]⟩

theorem has_trailing_amp_of_not (tokens : List String) (h : tokens.getLast? ≠ some "&") :
    has_trailing_amp tokens = false ∧ without_amp tokens = tokens := by
  have h0 : has_trailing_amp tokens = false := by
    simp [has_trailing_amp, h]
  exact ⟨h0, by simp [without_amp, h0]⟩

/-- The flag `background` is 1 exactly when the last token is `&`. -/
theorem parse_background_flag (tokens : List String) :
    (cmd_exec_parse tokens).background = if has_trailing_amp tokens then 1 else 0 := by
  by_cases h : tokens.getLast? = some "&"
  · obtain ⟨init, rfl⟩ := List.getLast?_eq_some_iff.mp h
    rw [parse_concat_amp, (has_trailing_amp_concat init).1]
    simp [cmd_exec_redir]
  · rw [parse_no_amp tokens h, (has_trailing_amp_of_not tokens h).1]
    simp [cmd_exec_redir]

/-- A redirection is recorded exactly when, the trailing `&` set aside, more
than two tokens remain and the second-to-last of them is `<` or `>`. -/
theorem parse_direction_flag (tokens : List String) :
    (cmd_exec_parse tokens).direction ≠ 0 ↔ has_redirection tokens = true := by
  by_cases h : tokens.getLast? = some "&"
  · obtain ⟨init, rfl⟩ := List.getLast?_eq_some_iff.mp h
    rw [parse_concat_amp, redir_direction]
    simp only [has_redirection, has_trailing_pair, (has_trailing_amp_concat init).2,
      second_to_last, Bool.and_eq_true, Bool.or_eq_true, decide_eq_true_eq]
    by_cases h2 : 2 < init.length
    · have hi : init.length - 2 < init.length := by omega
      have hg : tokens_get_token (init ++ ["&"]) (init.length - 2) =
          init[init.length - 2]? := by
        simp [tokens_get_token, List.getElem?_append_left hi]
      have h2' : 2 ≤ init.length := by omega
      simp [hg, h2, h2']
    · simp [h2]
  · rw [parse_no_amp tokens h, redir_direction]
    simp only [has_redirection, has_trailing_pair, (has_trailing_amp_of_not tokens h).2,
      second_to_last, Bool.and_eq_true, Bool.or_eq_true, decide_eq_true_eq]
    by_cases h2 : 2 < tokens.length
    · have h2' : 2 ≤ tokens.length := by omega
      simp [tokens_get_token, h2, h2']
    · simp [h2]

/-- C3, the claim as stated fails: `> out &` ends in an operator/target pair
and a trailing `&`, so with both removed nothing remains and the argument
vector should be the NULL sentinel alone; the code records no redirection
when no token precedes the operator and copies `>` and `out` to the vector. -/
theorem pair_without_command_stays_in_args :
    has_trailing_amp [">", "out", "&"] = true ∧
    has_trailing_pair [">", "out", "&"] = true ∧
    args_length_of [">", "out", "&"] true = 0 ∧
    (cmd_exec_parse [">", "out", "&"]).args = [some ">", some "out", none] ∧
    (cmd_exec_parse [">", "out", "&"]).args[0]? ≠ some none ∧
    (cmd_exec_parse [">", "out", "&"]).direction = 0 := by
  decide

/-- C3, amended: for every token sequence, take away the trailing `&` if the
last token is `&`, and then the trailing operator/target pair if more than two
tokens remain and the second-to-last of them is `<` or `>` (so that at least
one token precedes the operator).  The argument vector is what remains, in
the original order with the command name at index 0, followed by exactly one
NULL: with `args_length` the number of tokens minus 1 for the `&` and minus 2
for the pair, it has `args_length + 1` elements, element `i` is token `i` for
every `i < args_length`, and element `args_length` is NULL.  The flag
`background` is 1 exactly when the `&` was there, `direction` is not 0 exactly
when the pair was there, and the tokens left out are the operator, the target
and the `&`. -/
theorem parse_args_vector (tokens : List String) :
    ((cmd_exec_parse tokens).background = if has_trailing_amp tokens then 1 else 0) ∧
    ((cmd_exec_parse tokens).direction ≠ 0 ↔ has_redirection tokens = true) ∧
    (cmd_exec_parse tokens).args =
      (tokens.take (args_length_of tokens (has_redirection tokens))).map some ++ [none] ∧
    (cmd_exec_parse tokens).args.length =
      args_length_of tokens (has_redirection tokens) + 1 ∧
    (∀ i, i < args_length_of tokens (has_redirection tokens) →
      ∃ t, tokens[i]? = some t ∧ (cmd_exec_parse tokens).args[i]? = some (some t)) ∧
    (cmd_exec_parse tokens).args[args_length_of tokens (has_redirection tokens)]? =
      some none ∧
    (tokens.drop (args_length_of tokens (has_redirection tokens))).map some =
      (if has_redirection tokens then
         [second_to_last (without_amp tokens), (without_amp tokens).getLast?]
       else [])
        ++ (if has_trailing_amp tokens then [some "&"] else []) := by
  have hb := parse_background_flag tokens
  have hd := parse_direction_flag tokens
  obtain ⟨f1, f2, f3, _, _, f6⟩ := parse_args_vector_flags tokens
  have hN : tokens.length - (if (cmd_exec_parse tokens).background = 1 then 1 else 0) -
      (if (cmd_exec_parse tokens).direction ≠ 0 then 2 else 0) =
      args_length_of tokens (has_redirection tokens) := by
    simp only [args_length_of]
    have e1 : (if (cmd_exec_parse tokens).background = 1 then 1 else 0) =
        (if has_trailing_amp tokens = true then 1 else 0) := by
      rw [hb]
      cases has_trailing_amp tokens <;> simp
    have e2 : (if (cmd_exec_parse tokens).direction ≠ 0 then 2 else 0) =
        (if has_redirection tokens = true then 2 else 0) := by
      by_cases hr : has_redirection tokens = true
      · rw [if_pos (hd.mpr hr), if_pos hr]
      · rw [if_neg (fun h => hr (hd.mp h)), if_neg hr]
    rw [e1, e2]
  rw [hN] at f1 f2 f3 f6
  obtain ⟨body, redir, amp, hsplit, hargs, hamp, hredir⟩ := parse_shapes tokens
  have hlen : (cmd_exec_parse tokens).args.length = body.length + 1 := by
    rw [hargs]; simp
  have hbl : args_length_of tokens (has_redirection tokens) = body.length := by omega
  refine ⟨hb, hd, ?_, f1, f2, f3, ?_⟩
  · rw [hargs, hbl, hsplit, List.append_assoc, List.take_left' rfl]
  · rw [f6]
    have hamp2 : (if (cmd_exec_parse tokens).background = 1 then [some "&"] else []) =
        (if has_trailing_amp tokens = true then [some "&"] else []) := by
      rw [hb]
      cases has_trailing_amp tokens <;> simp
    rw [hamp2]
    congr 1
    by_cases hr : has_redirection tokens = true
    · have hdn : (cmd_exec_parse tokens).direction ≠ 0 := hd.mpr hr
      rw [if_neg hdn, if_pos hr]
      rcases hredir with ⟨_, hd0, _⟩ | ⟨op, target, hre, hbody, hdir, hfn⟩
      · exact absurd hd0 hdn
      · have hwa : without_amp tokens = body ++ [op, target] := by
          rcases hamp with ⟨ha, _, hne⟩ | ⟨ha, _⟩
          · rw [(has_trailing_amp_of_not tokens hne).2, hsplit, ha, hre]; simp
          · have : tokens = (body ++ [op, target]) ++ ["&"] := by
              rw [hsplit, ha, hre]
            rw [this, (has_trailing_amp_concat _).2]
        have hs : second_to_last (without_amp tokens) = some op := by
          rw [hwa]
          have hl2 : 2 ≤ (body ++ [op, target]).length := by simp
          have hidx : (body ++ [op, target]).length - 2 = body.length := by simp
          simp only [second_to_last, if_pos hl2, hidx]
          exact getElem_append_two_fst body [] op target
        have hlast : (without_amp tokens).getLast? = some target := by
          rw [hwa]
          simp
        rw [hs, hlast, hfn]
        rcases hdir with ⟨ho, hdv⟩ | ⟨ho, hdv⟩ <;> subst ho <;> simp [hdv]
    · have hdz : (cmd_exec_parse tokens).direction = 0 := by
        by_contra hc
        exact hr (hd.mp hc)
      rw [if_pos hdz, if_neg hr]

example : path_dirs [] "/usr/bin:/bin".toList = ["/usr/bin", "/bin"] := by decide
example : path_dirs [] "/usr/bin::/bin:".toList = ["/usr/bin", "", "/bin", ""] := by decide
example : path_dirs "xy".toList "/usr/bin:/bin".toList = ["/usr/bin", "/binxy"] := by decide
example : path_dirs_from "xy".toList [] "/usr/bin:/bin".toList = ["/usr/bin", "/binxy"] := by decide
example : dirs_passed (cmd_exec demo_world ["nosuch"] demo_sys).2.trace =
    [some "/usr/bin", some "/bin"] := by decide
example : launched_paths (cmd_exec demo_world ["ls"] demo_sys).2.trace =
    [some "/usr/bin/ls", some "/bin/ls"] := by decide
example : (cmd_exec demo_world ["ls"] demo_sys).1 = 0 := by decide
example : (cmd_exec demo_world ["/bin/ls"] demo_sys).2.fg = 10 := by decide

/-! ## Traces grow by appending -/

theorem Extends.refl (P : Call → Prop) (s : Sys) : Extends P s s :=
  ⟨[], by simp, by simp⟩

theorem Extends.trans {P : Call → Prop} {s1 s2 s3 : Sys} (h1 : Extends P s1 s2)
    (h2 : Extends P s2 s3) : Extends P s1 s3 := by
  obtain ⟨n1, e1, p1⟩ := h1
  obtain ⟨n2, e2, p2⟩ := h2
  refine ⟨n1 ++ n2, by rw [e2, e1, List.append_assoc], ?_⟩
  intro c hc
  rcases List.mem_append.mp hc with h | h
  · exact p1 c h
  · exact p2 c h

theorem Extends.mono {P Q : Call → Prop} {s1 s2 : Sys} (h : Extends P s1 s2)
    (hpq : ∀ c, P c → Q c) : Extends Q s1 s2 := by
  obtain ⟨n, e, p⟩ := h
  exact ⟨n, e, fun c hc => hpq c (p c hc)⟩

theorem Extends.emit {P : Call → Prop} (s : Sys) (c : Call) (h : P c) :
    Extends P s (s.emit c) :=
  ⟨[c], rfl, by simpa using h⟩

theorem Extends.fork {P : Call → Prop} (w : World) (child : List ChildOp) (s : Sys)
    (h : ∀ ret, P (Call.fork child ret)) : Extends P s (sys_fork w child s).2 :=
  ⟨[Call.fork child _], rfl, by simpa using h _⟩

theorem Extends.wait {P : Call → Prop} (w : World) (s : Sys)
    (h : ∀ st, P (Call.wait st)) : Extends P s (sys_wait w s).2 :=
  ⟨[Call.wait _], rfl, by simpa using h _⟩

theorem Extends.setpgid {P : Call → Prop} (w : World) (a b : Int) (s : Sys)
    (h : P (Call.setpgid a b)) : Extends P s (sys_setpgid w a b s) :=
  ⟨[Call.setpgid a b], rfl, by simpa using h⟩

theorem Extends.signal {P : Call → Prop} (hd : SigHandler) (s : Sys)
    (h : P (Call.signal_SIGTTOU hd)) : Extends P s (sys_signal_SIGTTOU hd s) :=
  ⟨[Call.signal_SIGTTOU hd], rfl, by simpa using h⟩

theorem Extends.tcsetpgrp {P : Call → Prop} (w : World) (g : Int) (s : Sys)
    (h : P (Call.tcsetpgrp 0 g)) : Extends P s (sys_tcsetpgrp w g s) :=
  ⟨[Call.tcsetpgrp 0 g], rfl, by simpa using h⟩

/-! ## Builtin `cd` -/

/-- The usage message never fits the 30 bytes of `str`: it takes 36 bytes
besides the digits of the number. -/
theorem sprintf_usage_overflows (n : Nat) : sprintf_usage_bytes n > 30 := by
  have h1 : "expect 0 or 1 argument, ".length = 24 := by decide
  have h2 : " are given\n".length = 11 := by decide
  simp only [sprintf_usage_bytes, h1, h2]
  omega

/-- C9, the claim as stated fails: on `cd a b` the handler does not return to
its caller.  Where the overflow of `str` goes unnoticed the process reports
and exits with status 1, and where it is caught the process is killed before
the report. -/
theorem cd_two_arguments_exits :
    (cmd_chdir demo_world ["cd", "a", "b"] demo_sys).1 = Outcome.exited 1 ∧
    (cmd_chdir demo_world_checked ["cd", "a", "b"] demo_sys).1 = Outcome.aborted ∧
    (¬ ∃ v, (cmd_chdir demo_world ["cd", "a", "b"] demo_sys).1 = Outcome.returned v) ∧
    ¬ ∃ v, (cmd_chdir demo_world_checked ["cd", "a", "b"] demo_sys).1 = Outcome.returned v := by
  have h : (cmd_chdir demo_world ["cd", "a", "b"] demo_sys).1 = Outcome.exited 1 := by decide
  have h' : (cmd_chdir demo_world_checked ["cd", "a", "b"] demo_sys).1 = Outcome.aborted := by
    decide
  refine ⟨h, h', ?_, ?_⟩
  · rintro ⟨v, hv⟩
    rw [h] at hv
    cases hv
  · rintro ⟨v, hv⟩
    rw [h'] at hv
    cases hv

/-- C9, amended: for every `cd` invocation whose token sequence is longer than
2, `cmd_chdir` makes no `chdir` call, leaves the working directory as it was,
and does not return to its caller: the shell process ends in this branch.
When the process gets as far as the `exit(1)` the branch is written to end
with, the usage error has been reported through `perror` just before. -/
theorem cd_usage_error (w : World) (tokens : List String) (s : Sys)
    (h : tokens.length > 2) :
    ((cmd_chdir w tokens s).1 = Outcome.exited 1 ∨ (cmd_chdir w tokens s).1 = Outcome.aborted) ∧
    (∀ v, (cmd_chdir w tokens s).1 ≠ Outcome.returned v) ∧
    (cmd_chdir w tokens s).2.cwd = s.cwd ∧
    Extends (fun c => ∀ path, c ≠ Call.chdir path) s (cmd_chdir w tokens s).2 ∧
    ((cmd_chdir w tokens s).1 = Outcome.exited 1 →
      (cmd_chdir w tokens s).2.trace = s.trace ++
        [Call.sprintf 30 "expect 0 or 1 argument, %lu are given\n"
           [PArg.int ((tokens.length : Int) - 1)],
         Call.perror "expect 0 or 1 argument, %lu are given\n"
           [PArg.int ((tokens.length : Int) - 1)],
         Call.sys_exit 1]) := by
  have hl : 2 < tokens.length := h
  have hov := sprintf_usage_overflows (tokens.length - 1)
  cases ha : w.overflow_aborts
  · have e : cmd_chdir w tokens s = (Outcome.exited 1,
        ((s.emit (Call.sprintf 30 "expect 0 or 1 argument, %lu are given\n"
          [PArg.int ((tokens.length : Int) - 1)])).emit
          (Call.perror "expect 0 or 1 argument, %lu are given\n"
            [PArg.int ((tokens.length : Int) - 1)])).emit (Call.sys_exit 1)) := by
      simp [cmd_chdir, tokens_get_length, hl, ha]
    rw [e]
    refine ⟨Or.inl rfl, fun v hv => (by cases hv), rfl,
      ⟨[Call.sprintf 30 "expect 0 or 1 argument, %lu are given\n"
          [PArg.int ((tokens.length : Int) - 1)],
        Call.perror "expect 0 or 1 argument, %lu are given\n"
          [PArg.int ((tokens.length : Int) - 1)],
        Call.sys_exit 1], (by simp [Sys.emit]), ?_⟩,
      fun _ => (by simp [Sys.emit])⟩
    intro c hc path
    simp only [List.mem_cons, List.mem_singleton, List.not_mem_nil, or_false] at hc
    rcases hc with rfl | rfl | rfl <;> simp
  · have e : cmd_chdir w tokens s = (Outcome.aborted,
        s.emit (Call.sprintf 30 "expect 0 or 1 argument, %lu are given\n"
          [PArg.int ((tokens.length : Int) - 1)])) := by
      simp [cmd_chdir, tokens_get_length, hl, ha, hov]
    rw [e]
    refine ⟨Or.inr rfl, fun v hv => (by cases hv), rfl, ⟨_, rfl, ?_⟩, fun hx => (by cases hx)⟩
    intro c hc path
    simp only [List.mem_singleton] at hc
    subst hc
    simp

/-- The claim C9 amended at `cd a b`. -/
theorem cd_usage_error_witness :
    (cmd_chdir demo_world ["cd", "a", "b"] demo_sys).2.cwd = "/" :=
  (cd_usage_error demo_world ["cd", "a", "b"] demo_sys (by decide)).2.2.1

/-! ## The terminal -/

/-- A shell that leads its own process group leaves `init_shell` with the
terminal owned by the group recorded in `shell_pgid`, which is its own group
and its pid. -/
theorem init_shell_owns_terminal (w : World) (s s1 : Sys) (htty : w.isatty = true)
    (hlead : s.pgrp = s.pid) (h : init_shell w s = some s1) :
    s1.shell_pgid = s1.pid ∧ s1.pgrp = s1.shell_pgid ∧ s1.fg = s1.shell_pgid := by
  simp only [init_shell, htty, if_true] at h
  split_ifs at h with hfg
  have h1 := Option.some.inj h
  subst h1
  simp [sys_tcsetpgrp, htty, hlead]

/-- A shell that is a member, not the leader, of the foreground process group
leaves `init_shell` with `shell_pgid` set to its pid and the terminal still
on the group it belongs to: there is no `setpgid` in `init_shell`, and
`tcsetpgrp` with a pid that names no process group fails. -/
theorem init_shell_member (w : World) (s s1 : Sys) (htty : w.isatty = true)
    (hmem : s.pgrp ≠ s.pid) (hcg : s.pid ∉ s.child_groups) (h : init_shell w s = some s1) :
    s1.shell_pgid = s1.pid ∧ s1.fg = s1.pgrp ∧ s1.pgrp ≠ s1.pid := by
  simp only [init_shell, htty, if_true] at h
  split_ifs at h with hfg
  have h1 := Option.some.inj h
  subst h1
  have hne : ¬ s.pid = s.pgrp := fun e => hmem e.symm
  simp [sys_tcsetpgrp, htty, hne, hcg, hfg, hmem]

/-- C8, evaluated: for `ls &`, where `ls` is not directly accessible and is
found through `PATH`, the background flag is set and `cmd_exec2` still waits
for each child it forks (the trace holds a `wait` after each `fork`); for
`/bin/ls &`, which is directly accessible, the parent makes no call after
the `fork`. -/
theorem background_path_search_waits :
    (cmd_exec_parse ["ls", "&"]).background = 1 ∧
    sys_access demo_world (some "ls") = false ∧
    (cmd_exec demo_world ["ls", "&"] demo_sys).2.trace =
      [Call.printf "the parent pid is %d and pgrp ID is %d\n" [PArg.int 10, PArg.int 10],
       Call.access (some "ls"),
       Call.getenv "PATH",
       Call.printf "direcotry: %s, cmd: %s\n" [PArg.str (some "/usr/bin"), PArg.str (some "ls")],
       Call.opendir "/usr/bin",
       Call.fork [ChildOp.execv (some "/usr/bin/ls") [some "ls", none]] 101,
       Call.wait 256,
       Call.closedir,
       Call.printf "direcotry: %s, cmd: %s\n" [PArg.str (some "/bin"), PArg.str (some "ls")],
       Call.opendir "/bin",
       Call.fork [ChildOp.execv (some "/bin/ls") [some "ls", none]] 102,
       Call.wait 0] ∧
    (cmd_exec demo_world ["/bin/ls", "&"] demo_sys).2.trace =
      [Call.printf "the parent pid is %d and pgrp ID is %d\n" [PArg.int 10, PArg.int 10],
       Call.access (some "/bin/ls"),
       Call.fork [ChildOp.printf "the child pgid is %d\n",
                  ChildOp.execv (some "/bin/ls") [some "/bin/ls", none]] 101] := by
  decide

/-! ## Output redirection -/

theorem cmd_exec2_readdir_calls (w : World) (cmd : Option String) (d : CmdDescr)
    (path name : String) (entries : List String) (s : Sys) :
    Extends (CmdExecCall cmd d false) s
      (cmd_exec2_readdir w path name d.args d.filename d.direction entries s).2 := by
  induction entries generalizing s with
  | nil => exact Extends.refl _ _
  | cons e es ih =>
    have hf : Extends (CmdExecCall cmd d false) s
        (sys_wait w (sys_fork w (cmd_exec2_child path e d.args d.filename d.direction) s).2).2 :=
      (Extends.fork w _ s (fun ret => CmdExecCall.fork_search path e ret rfl)).trans
        (Extends.wait w _ (fun st => CmdExecCall.wait_search st rfl))
    simp only [cmd_exec2_readdir]
    split_ifs
    · exact hf
    · exact hf.trans (ih _)
    · exact ih s

theorem cmd_exec2_calls (w : World) (cmd : Option String) (d : CmdDescr) (path : String)
    (name : Option String) (s : Sys) :
    Extends (CmdExecCall cmd d false) s
      (cmd_exec2 w path name d.args d.filename d.direction s).2 := by
  have h0 : Extends (CmdExecCall cmd d false) s (s.emit (Call.printf "direcotry: %s, cmd: %s\n"
      [PArg.str (some path), PArg.str name])) := Extends.emit s _ (CmdExecCall.printf _ _)
  cases name with
  | none => simpa [cmd_exec2] using h0
  | some n =>
    have h1 := h0.trans (Extends.emit _ (Call.opendir path) (CmdExecCall.opendir path rfl))
    simp only [cmd_exec2]
    cases hd : w.dir_entries path with
    | none =>
      exact h1.trans (Extends.emit _ _ (CmdExecCall.perror _ _ rfl))
    | some entries =>
      have h2 := h1.trans (cmd_exec2_readdir_calls w cmd d path n entries _)
      simp only []
      split_ifs
      · exact h2
      · exact h2.trans (Extends.emit _ _ (CmdExecCall.closedir rfl))

theorem cmd_exec_scan_calls (w : World) (paths : List Char) (cmd : Option String) (d : CmdDescr)
    (rest : List Char) (start end_ : Nat) (s : Sys) :
    Extends (CmdExecCall cmd d false) s (cmd_exec_scan w paths cmd d rest start end_ s).2 := by
  induction rest generalizing start end_ s with
  | nil =>
    simp only [cmd_exec_scan]
    split_ifs <;> exact cmd_exec2_calls w cmd d _ cmd s
  | cons c cs ih =>
    simp only [cmd_exec_scan]
    split_ifs
    · exact cmd_exec2_calls w cmd d _ cmd s
    · exact (cmd_exec2_calls w cmd d _ cmd s).trans (ih _ _ _)
    · exact ih start (end_ + 1) s

theorem cmd_exec_direct_calls (w : World) (cmd : Option String) (d : CmdDescr) (s : Sys) :
    Extends (CmdExecCall cmd d true) s (cmd_exec_direct w cmd d s) := by
  have hf : Extends (CmdExecCall cmd d true) s (sys_fork w (cmd_exec_child cmd d) s).2 :=
    Extends.fork w _ s (fun ret => CmdExecCall.fork_direct ret rfl)
  simp only [cmd_exec_direct]
  split_ifs with hbg
  · exact hf.trans
      ((Extends.setpgid w _ _ _ (CmdExecCall.setpgid _ _ rfl hbg)).trans
        ((Extends.signal _ _ (CmdExecCall.signal _ rfl hbg)).trans
          ((Extends.tcsetpgrp w _ _ (CmdExecCall.tcsetpgrp _ rfl hbg)).trans
            ((Extends.wait w _ (fun st => CmdExecCall.wait_direct st rfl hbg)).trans
              ((Extends.tcsetpgrp w _ _ (CmdExecCall.tcsetpgrp _ rfl hbg)).trans
                (Extends.signal _ _ (CmdExecCall.signal _ rfl hbg)))))))
  · exact hf

/-- Every call of `cmd_exec` is one of those listed in `CmdExecCall`. -/
theorem cmd_exec_calls (w : World) (tokens : List String) (s : Sys) :
    Extends (CmdExecCall (tokens_get_token tokens 0) (cmd_exec_parse tokens)
      (sys_access w (tokens_get_token tokens 0))) s (cmd_exec w tokens s).2 := by
  have h1 : ∀ b, Extends (CmdExecCall (tokens_get_token tokens 0) (cmd_exec_parse tokens) b) s
      ((s.emit (Call.printf "the parent pid is %d and pgrp ID is %d\n"
        [PArg.int s.pid, PArg.int s.pgrp])).emit (Call.access (tokens_get_token tokens 0))) :=
    fun b => (Extends.emit s _ (CmdExecCall.printf _ _)).trans
      (Extends.emit _ _ (CmdExecCall.access _))
  simp only [cmd_exec]
  split_ifs with hacc
  · rw [hacc]
    exact (h1 true).trans (cmd_exec_direct_calls w _ _ _)
  · have hacc0 : sys_access w (tokens_get_token tokens 0) = false := by simpa using hacc
    rw [hacc0]
    refine (h1 false).trans
      ((Extends.emit _ (Call.getenv "PATH") (CmdExecCall.getenv _ rfl)).trans ?_)
    exact cmd_exec_scan_calls w _ _ _ _ _ _ _

/-- Every fork of `cmd_exec` runs one of the two child programs. -/
theorem cmd_exec_forks (Q : List ChildOp → Prop) (w : World) (tokens : List String) (s : Sys)
    (hdirect : Q (cmd_exec_child (tokens_get_token tokens 0) (cmd_exec_parse tokens)))
    (hsearch : ∀ p e, Q (cmd_exec2_child p e (cmd_exec_parse tokens).args
      (cmd_exec_parse tokens).filename (cmd_exec_parse tokens).direction)) :
    Extends (ForkAll Q) s (cmd_exec w tokens s).2 := by
  refine (cmd_exec_calls w tokens s).mono ?_
  intro c hc child ret heq
  cases hc <;> cases heq <;> first | exact hdirect | exact hsearch _ _

/-- With the background flag set `cmd_exec` makes no `tcsetpgrp` call on
either branch, and on the directly accessible branch it makes no `wait` call. -/
theorem background_calls (w : World) (tokens : List String) (s : Sys)
    (h : (cmd_exec_parse tokens).background = 1) :
    Extends (fun c => (∀ fd g, c ≠ Call.tcsetpgrp fd g) ∧
        (sys_access w (tokens_get_token tokens 0) = true → ∀ st, c ≠ Call.wait st))
      s (cmd_exec w tokens s).2 := by
  refine (cmd_exec_calls w tokens s).mono ?_
  intro c hc
  cases hc with
  | tcsetpgrp g _ hbg => rw [h] at hbg; cases hbg
  | wait_direct st _ hbg => rw [h] at hbg; cases hbg
  | wait_search st hd =>
    refine ⟨(by intro _ _ h; cases h), ?_⟩
    intro hacc
    rw [hacc] at hd
    cases hd
  | _ => exact ⟨(by intro _ _ h; cases h), (by intro _ _ h; cases h)⟩

theorem child_run_printfs (st : ChildState) (pre : List ChildOp)
    (h : ∀ op ∈ pre, ∃ fmt, op = ChildOp.printf fmt) : child_run st pre = st := by
  induction pre with
  | nil => rfl
  | cons op ops ih =>
    obtain ⟨fmt, rfl⟩ := h _ (List.mem_cons_self _ _)
    have := ih (fun o ho => h o (List.mem_cons_of_mem _ ho))
    simpa [child_run, child_step] using this

/-- What the operations of an output-redirecting child do: descriptor 1 ends on
the target, a missing target is created empty with mode 0644, and a target
that exists keeps its mode and contents. -/
theorem child_run_output (d : CmdDescr) (child : List ChildOp) (target : String)
    (hc : output_child d child) (hf : d.filename = some target) (st : ChildState) :
    (child_run st child).fd1 = some target ∧
    (child_run st child).fs target =
      (match st.fs target with
       | some f => some f
       | none => some ⟨0o644, ""⟩) := by
  obtain ⟨pre, path, rfl, hpre⟩ := hc
  have h0 : child_run st pre = st := child_run_printfs st pre hpre
  have happ : child_run st (pre ++
      [ChildOp.open_ d.filename [OFlag.O_CREAT, OFlag.O_WRONLY] (some 0o644), ChildOp.dup2 1,
       ChildOp.close, ChildOp.execv path d.args]) =
      child_run (child_run st pre)
        [ChildOp.open_ d.filename [OFlag.O_CREAT, OFlag.O_WRONLY] (some 0o644), ChildOp.dup2 1,
         ChildOp.close, ChildOp.execv path d.args] := by
    simp [child_run, List.foldl_append]
  rw [happ, h0, hf]
  cases hfs : st.fs target <;>
    simp [child_run, child_step, open_file, hfs]

/-- C10, the claim as stated fails: for `/bin/ls > out` (direct branch) and for
`ls > out` (`PATH` search) the child opens `out` with `O_CREAT | O_WRONLY`
only, and on a file system where `out` already holds `old contents` the file
still holds them when the child reaches `execv`: nothing is discarded. -/
theorem output_target_not_truncated :
    (cmd_exec_parse ["/bin/ls", ">", "out"]).direction = 1 ∧
    Call.fork [ChildOp.printf "the child pgid is %d\n",
        ChildOp.open_ (some "out") [OFlag.O_CREAT, OFlag.O_WRONLY] (some 0o644),
        ChildOp.dup2 1, ChildOp.close,
        ChildOp.execv (some "/bin/ls") [some "/bin/ls", none]] 101
      ∈ (cmd_exec demo_world ["/bin/ls", ">", "out"] demo_sys).2.trace ∧
    Call.fork [ChildOp.open_ (some "out") [OFlag.O_CREAT, OFlag.O_WRONLY] (some 0o644),
        ChildOp.dup2 1, ChildOp.close,
        ChildOp.execv (some "/usr/bin/ls") [some "ls", none]] 101
      ∈ (cmd_exec demo_world ["ls", ">", "out"] demo_sys).2.trace ∧
    demo_child.fs "out" = some ⟨0o600, "old contents"⟩ ∧
    (child_run demo_child [ChildOp.printf "the child pgid is %d\n",
        ChildOp.open_ (some "out") [OFlag.O_CREAT, OFlag.O_WRONLY] (some 0o644),
        ChildOp.dup2 1, ChildOp.close,
        ChildOp.execv (some "/bin/ls") [some "/bin/ls", none]]).fs "out" =
      some ⟨0o600, "old contents"⟩ ∧
    (child_run demo_child [ChildOp.open_ (some "out") [OFlag.O_CREAT, OFlag.O_WRONLY] (some 0o644),
        ChildOp.dup2 1, ChildOp.close,
        ChildOp.execv (some "/usr/bin/ls") [some "ls", none]]).fs "out" =
      some ⟨0o600, "old contents"⟩ := by
  decide

/-- C10, amended: for every launch with output redirection, on the direct
branch and on the `PATH` search branch alike, the child opens the target
write-only with `O_CREAT` and mode 0644 and without `O_TRUNC`, duplicates it
onto descriptor 1 and closes the original before `execv`.  So descriptor 1
ends on the target, a target that was absent is created empty with
permissions 0644, and a target that exists is opened as it is: its previous
contents are kept, not discarded. -/
theorem output_redirection (w : World) (tokens : List String) (s : Sys)
    (h : (cmd_exec_parse tokens).direction = 1) :
    ∃ target, (cmd_exec_parse tokens).filename = some target ∧
      Extends (ForkAll (fun child =>
        output_child (cmd_exec_parse tokens) child ∧
        ∀ st : ChildState,
          (child_run st child).fd1 = some target ∧
          (child_run st child).fs target =
            (match st.fs target with
             | some f => some f
             | none => some ⟨0o644, ""⟩))) s (cmd_exec w tokens s).2 := by
  obtain ⟨body, redir, amp, _, _, _, hredir⟩ := parse_shapes tokens
  have hfn : ∃ target, (cmd_exec_parse tokens).filename = some target := by
    rcases hredir with ⟨_, hd, _⟩ | ⟨_, target, _, _, _, hf⟩
    · rw [h] at hd; cases hd
    · exact ⟨target, hf⟩
  obtain ⟨target, hf⟩ := hfn
  refine ⟨target, hf, ?_⟩
  have hdirect : output_child (cmd_exec_parse tokens)
      (cmd_exec_child (tokens_get_token tokens 0) (cmd_exec_parse tokens)) := by
    refine ⟨[ChildOp.printf "the child pgid is %d\n"], tokens_get_token tokens 0, ?_, ?_⟩
    · simp [cmd_exec_child, h]
    · intro op hop
      exact ⟨_, List.mem_singleton.mp hop⟩
  have hsearch : ∀ p e, output_child (cmd_exec_parse tokens)
      (cmd_exec2_child p e (cmd_exec_parse tokens).args (cmd_exec_parse tokens).filename
        (cmd_exec_parse tokens).direction) := by
    intro p e
    refine ⟨[], some (p ++ "/" ++ e), ?_, ?_⟩
    · simp [cmd_exec2_child, h]
    · intro op hop
      cases hop
  apply cmd_exec_forks
  · exact ⟨hdirect, fun st => child_run_output _ _ target hdirect hf st⟩
  · intro p e
    exact ⟨hsearch p e, fun st => child_run_output _ _ target (hsearch p e) hf st⟩

/-- The claim C10 amended at `ls > out` on the demo machine. -/
theorem output_redirection_witness :
    ∃ target, (cmd_exec_parse ["ls", ">", "out"]).filename = some target ∧
      Extends (ForkAll (fun child =>
        output_child (cmd_exec_parse ["ls", ">", "out"]) child ∧
        ∀ st : ChildState,
          (child_run st child).fd1 = some target ∧
          (child_run st child).fs target =
            (match st.fs target with
             | some f => some f
             | none => some ⟨0o644, ""⟩))) demo_sys
        (cmd_exec demo_world ["ls", ">", "out"] demo_sys).2 :=
  output_redirection demo_world ["ls", ">", "out"] demo_sys (by decide)

/-! ## The `PATH` loop -/

theorem copy_segment_eq (pre cur rest : List Char) :
    copy_segment (pre ++ cur ++ rest) pre.length (pre.length + cur.length) =
      cur.map Cell.chr ++ [Cell.indet] := by
  have h : (List.range cur.length).map
      (fun k => Cell.chr ((pre ++ cur ++ rest).getD (pre.length + k) ' ')) = cur.map Cell.chr := by
    apply List.ext_getElem
    · simp
    · intro i h1 h2
      have hi : i < cur.length := by simpa using h2
      simp [List.getD, List.getElem?_append_right, List.getElem?_append_left, hi,
        List.getElem?_eq_getElem hi]
  simp only [copy_segment, Nat.add_sub_cancel_left, h]

theorem c_str_unterminated (r cur : List Char) :
    c_str r (cur.map Cell.chr ++ [Cell.indet]) = cur ++ r := by
  induction cur with
  | nil => simp [c_str]
  | cons c cs ih => simp [c_str, ih]

theorem c_str_terminated (r cur : List Char) :
    c_str r ((cur.map Cell.chr ++ [Cell.indet]).set cur.length Cell.nul) = cur := by
  induction cur with
  | nil => simp [c_str]
  | cons c cs ih => simpa [c_str] using ih

/-- The `PATH` loop, entered at `paths + end` with the segment `cur` under way,
is the directory search over the strings of `path_dirs_from`. -/
theorem cmd_exec_scan_eq_search (w : World) (cmd : Option String) (d : CmdDescr)
    (rest : List Char) :
    ∀ (pre cur paths : List Char) (start end_ : Nat) (s : Sys),
      paths = pre ++ cur ++ rest → start = pre.length → end_ = pre.length + cur.length →
      cmd_exec_scan w paths cmd d rest start end_ s =
        search_dirs w cmd d (path_dirs_from w.residue cur rest) s := by
  induction rest with
  | nil =>
    intro pre cur paths start end_ s hp hs he
    subst hp hs he
    have hc := copy_segment_eq pre cur []
    simp only [cmd_exec_scan, path_dirs_from, search_dirs, hc, c_str_unterminated]
  | cons c cs ih =>
    intro pre cur paths start end_ s hp hs he
    subst hp hs he
    have hc := copy_segment_eq pre cur (c :: cs)
    simp only [cmd_exec_scan, path_dirs_from, hc, Nat.add_sub_cancel_left, c_str_terminated]
    by_cases hcol : c = ':'
    · simp only [hcol, if_true, search_dirs]
      split_ifs
      · rfl
      · subst hcol
        exact ih (pre ++ cur ++ [':']) [] _ _ _ _ (by simp) (by simp [Nat.add_assoc])
          (by simp [Nat.add_assoc])
    · simp only [hcol, if_false]
      exact ih pre (cur ++ [c]) _ _ _ _ (by simp) rfl (by simp [Nat.add_assoc])

theorem path_dirs_from_eq_split (residue : List Char) (rest : List Char) :
    ∀ cur : List Char, path_dirs_from residue cur rest =
      (((rest.splitOn ':').modifyHead (fun seg => cur ++ seg)).dropLast.map String.mk) ++
      [String.mk ((((rest.splitOn ':').modifyHead (fun seg => cur ++ seg)).getLast?).getD []
        ++ residue)] := by
  induction rest with
  | nil =>
    intro cur
    simp [path_dirs_from, List.splitOn, List.modifyHead]
  | cons c cs ih =>
    intro cur
    have hne : cs.splitOn ':' ≠ [] := List.splitOnP_ne_nil _ _
    obtain ⟨x, xs, hx⟩ := List.exists_cons_of_ne_nil hne
    by_cases hcol : c = ':'
    · subst hcol
      have hsp : (':' :: cs).splitOn ':' = [] :: cs.splitOn ':' := by
        simp [List.splitOn, List.splitOnP_cons]
      have h0 := ih []
      simp only [path_dirs_from, if_true, hsp, h0, hx, List.modifyHead, List.nil_append,
        List.append_nil]
      simp [List.dropLast, List.getLast?_cons_cons]
    · have hsp : (c :: cs).splitOn ':' = (cs.splitOn ':').modifyHead (List.cons c) := by
        simp [List.splitOn, List.splitOnP_cons, hcol]
      have h1 := ih (cur ++ [c])
      simp only [path_dirs_from, hcol, if_false, hsp, h1, hx, List.modifyHead,
        List.append_assoc, List.singleton_append]

/-- The directory strings of a complete run of the `PATH` loop are `PATH`
split on `:`, with the residue after the last segment. -/
theorem path_dirs_from_nil (residue paths : List Char) :
    path_dirs_from residue [] paths = path_dirs residue paths := by
  have h := path_dirs_from_eq_split residue paths []
  have hid : (fun seg : List Char => [] ++ seg) = id := by
    funext seg; simp
  have hm : ∀ l : List (List Char), l.modifyHead id = l := by
    intro l; cases l <;> rfl
  rw [hid, hm] at h
  exact h

/-! ## Launches of the directory search -/

theorem launched_paths_append (a b : List Call) :
    launched_paths (a ++ b) = launched_paths a ++ launched_paths b := by
  simp [launched_paths, List.filterMap_append]

theorem launched_paths_emit (s : Sys) (c : Call) (h : ∀ child ret, c ≠ Call.fork child ret) :
    launched_paths (s.emit c).trace = launched_paths s.trace := by
  simp only [Sys.emit, launched_paths_append]
  cases c <;> simp [launched_paths] at h ⊢

theorem exec_target_cmd_exec2_child (path e : String) (args : List (Option String))
    (filename : Option String) (direction : Int) :
    exec_target (cmd_exec2_child path e args filename direction) = some (path ++ "/" ++ e) := by
  simp only [cmd_exec2_child]
  split_ifs <;> simp [exec_target]

theorem launched_of_not_found (status : Nat → Int) (a : List String) :
    ∀ n, found_zero status n a = false → launched_until_zero status n a = a := by
  induction a with
  | nil => intro n _; rfl
  | cons c cs ih =>
    intro n h
    simp only [found_zero, Bool.or_eq_false_iff, decide_eq_false_iff_not] at h
    simp [launched_until_zero, h.1, ih (n + 1) h.2]

theorem launched_append_found (status : Nat → Int) (a b : List String) :
    ∀ n, found_zero status n a = true →
      launched_until_zero status n (a ++ b) = launched_until_zero status n a ∧
      found_zero status n (a ++ b) = true := by
  induction a with
  | nil => intro n h; simp [found_zero] at h
  | cons c cs ih =>
    intro n h
    by_cases h0 : status n = 0
    · simp [launched_until_zero, found_zero, h0]
    · have h1 : found_zero status (n + 1) cs = true := by
        simpa [found_zero, h0] using h
      have := ih (n + 1) h1
      simp [launched_until_zero, found_zero, h0, this.1, this.2]

theorem launched_append_not_found (status : Nat → Int) (a b : List String) :
    ∀ n, found_zero status n a = false →
      launched_until_zero status n (a ++ b) = a ++ launched_until_zero status (n + a.length) b ∧
      found_zero status n (a ++ b) = found_zero status (n + a.length) b := by
  induction a with
  | nil => intro n _; simp
  | cons c cs ih =>
    intro n h
    simp only [found_zero, Bool.or_eq_false_iff, decide_eq_false_iff_not] at h
    have := ih (n + 1) h.2
    have e : n + 1 + cs.length = n + (cs.length + 1) := by omega
    simp [launched_until_zero, found_zero, h.1, this.1, this.2, e]

theorem cmd_exec2_readdir_launched (w : World) (path name : String)
    (args : List (Option String)) (filename : Option String) (direction : Int)
    (entries : List String) :
    ∀ s : Sys,
      (cmd_exec2_readdir w path name args filename direction entries s).1 =
        found_zero w.wait_status s.nwait
          ((entries.filter (fun e => decide (name = e))).map (fun e => path ++ "/" ++ e)) ∧
      launched_paths (cmd_exec2_readdir w path name args filename direction entries s).2.trace =
        launched_paths s.trace ++ (launched_until_zero w.wait_status s.nwait
          ((entries.filter (fun e => decide (name = e))).map (fun e => path ++ "/" ++ e))).map some ∧
      (cmd_exec2_readdir w path name args filename direction entries s).2.nwait =
        s.nwait + (launched_until_zero w.wait_status s.nwait
          ((entries.filter (fun e => decide (name = e))).map
            (fun e => path ++ "/" ++ e))).length := by
  induction entries with
  | nil => intro s; simp [cmd_exec2_readdir, found_zero, launched_until_zero]
  | cons e es ih =>
    intro s
    by_cases hne : name = e
    · have hlp : launched_paths
          (sys_wait w (sys_fork w (cmd_exec2_child path e args filename direction) s).2).2.trace =
          launched_paths s.trace ++ [some (path ++ "/" ++ e)] := by
        simp [sys_wait, sys_fork, launched_paths_append, launched_paths,
          exec_target_cmd_exec2_child]
      have hnw : (sys_wait w
          (sys_fork w (cmd_exec2_child path e args filename direction) s).2).2.nwait =
          s.nwait + 1 := by
        simp [sys_wait, sys_fork]
      have hst : (sys_wait w
          (sys_fork w (cmd_exec2_child path e args filename direction) s).2).1 =
          w.wait_status s.nwait := by
        simp [sys_wait, sys_fork]
      have hfil : (List.filter (fun e => decide (name = e)) (e :: es)) =
          e :: List.filter (fun e => decide (name = e)) es := by
        simp [List.filter, hne]
      simp only [cmd_exec2_readdir]
      rw [if_pos hne, hfil]
      simp only [hst, List.map_cons]
      by_cases h0 : w.wait_status s.nwait = 0
      · simp [h0, found_zero, launched_until_zero, hlp, hnw]
      · have := ih (sys_wait w (sys_fork w (cmd_exec2_child path e args filename direction) s).2).2
        rw [hnw, hlp] at this
        simp only [h0, if_false, found_zero, launched_until_zero, decide_False, Bool.false_or,
          List.map_cons, List.length_cons]
        refine ⟨this.1, ?_, ?_⟩
        · rw [this.2.1]; simp
        · rw [this.2.2]; omega
    · have hfil : (List.filter (fun e => decide (name = e)) (e :: es)) =
          List.filter (fun e => decide (name = e)) es := by
        simp [List.filter, hne]
      simp only [cmd_exec2_readdir]
      rw [if_neg hne, hfil]
      exact ih s

theorem cmd_exec2_launched (w : World) (path name : String) (args : List (Option String))
    (filename : Option String) (direction : Int) (s : Sys) :
    (cmd_exec2 w path (some name) args filename direction s).1 =
      (if found_zero w.wait_status s.nwait (dir_candidates w name path) then 0 else -1) ∧
    launched_paths (cmd_exec2 w path (some name) args filename direction s).2.trace =
      launched_paths s.trace ++
        (launched_until_zero w.wait_status s.nwait (dir_candidates w name path)).map some ∧
    (cmd_exec2 w path (some name) args filename direction s).2.nwait =
      s.nwait + (launched_until_zero w.wait_status s.nwait (dir_candidates w name path)).length := by
  rcases hd : w.dir_entries path with _ | entries
  · simp [cmd_exec2, dir_candidates, hd, found_zero, launched_until_zero, Sys.emit,
      launched_paths_append, launched_paths]
  · simp only [cmd_exec2, dir_candidates, hd]
    have h := cmd_exec2_readdir_launched w path name args filename direction entries
      ((s.emit (Call.printf "direcotry: %s, cmd: %s\n"
        [PArg.str (some path), PArg.str (some name)])).emit (Call.opendir path))
    have hl : launched_paths ((s.emit (Call.printf "direcotry: %s, cmd: %s\n"
        [PArg.str (some path), PArg.str (some name)])).emit (Call.opendir path)).trace =
        launched_paths s.trace := by
      simp [Sys.emit, launched_paths_append, launched_paths]
    have hn : ((s.emit (Call.printf "direcotry: %s, cmd: %s\n"
        [PArg.str (some path), PArg.str (some name)])).emit (Call.opendir path)).nwait =
        s.nwait := rfl
    rw [hl, hn] at h
    obtain ⟨h1, h2, h3⟩ := h
    rw [h1]
    split_ifs
    · exact ⟨rfl, h2, h3⟩
    · refine ⟨rfl, ?_, ?_⟩
      · rw [launched_paths_emit _ _ (by intro _ _ h; cases h)]
        exact h2
      · exact h3

theorem search_dirs_launched (w : World) (name : String) (d : CmdDescr) (dirs : List String) :
    ∀ s : Sys,
      (search_dirs w (some name) d dirs s).1 =
        (if found_zero w.wait_status s.nwait (candidates w name dirs) then 0 else -1) ∧
      launched_paths (search_dirs w (some name) d dirs s).2.trace =
        launched_paths s.trace ++
          (launched_until_zero w.wait_status s.nwait (candidates w name dirs)).map some := by
  induction dirs with
  | nil => intro s; simp [search_dirs, candidates, found_zero, launched_until_zero]
  | cons p ps ih =>
    intro s
    obtain ⟨h1, h2, h3⟩ := cmd_exec2_launched w p name d.args d.filename d.direction s
    have hc : candidates w name (p :: ps) = dir_candidates w name p ++ candidates w name ps := by
      simp [candidates, List.flatMap_cons]
    simp only [search_dirs]
    rw [hc]
    by_cases hf : found_zero w.wait_status s.nwait (dir_candidates w name p) = true
    · obtain ⟨a1, a2⟩ := launched_append_found w.wait_status (dir_candidates w name p)
        (candidates w name ps) s.nwait hf
      rw [hf] at h1
      simp only [if_true] at h1
      rw [if_pos h1, a1, a2]
      exact ⟨by simp, h2⟩
    · have hf0 : found_zero w.wait_status s.nwait (dir_candidates w name p) = false := by
        simpa using hf
      obtain ⟨a1, a2⟩ := launched_append_not_found w.wait_status (dir_candidates w name p)
        (candidates w name ps) s.nwait hf0
      have hl := launched_of_not_found w.wait_status (dir_candidates w name p) s.nwait hf0
      rw [hf0] at h1
      simp only [Bool.false_eq_true, if_false] at h1
      have hne : ¬ (cmd_exec2 w p (some name) d.args d.filename d.direction s).1 = 0 := by
        rw [h1]; decide
      rw [if_neg hne, a1, a2]
      rw [hl] at h2 h3
      obtain ⟨i1, i2⟩ := ih (cmd_exec2 w p (some name) d.args d.filename d.direction s).2
      rw [h3] at i1 i2
      refine ⟨i1, ?_⟩
      rw [i2, h2]
      simp

/-- C5, the claim as stated fails: with `PATH=/a:/b`, both directories holding
`prog`, and a first launch whose child runs and exits with code 1 (wait status
256), the search goes on and `prog` is launched a second time from `/b`. -/
theorem nonzero_exit_launches_again :
    sys_access demo_world_ab (some "prog") = false ∧
    demo_world_ab.wait_status 0 = 256 ∧
    launched_paths (cmd_exec demo_world_ab ["prog"] demo_sys).2.trace =
      [some "/a/prog", some "/b/prog"] := by
  decide

/-- C5, amended: for every `PATH` value and every command name that is not
directly accessible, the resolver goes through the directory strings handed
to `cmd_exec2` in `PATH` order, skips the directories that cannot be opened or
hold no entry equal to the name, and launches the matching entries in that
order, starting with the one of the first directory that has a match.  It
goes on to the next match exactly when the wait status that follows a launch
is not 0, and it stops, returning 0, at the first launch followed by wait
status 0; when there is none it returns -1 after the last directory.  So a
program that ran and exited with a non-zero status is launched again from
every later directory that has a match. -/
theorem path_search_launches (w : World) (tokens : List String) (s : Sys) (name : String)
    (hname : tokens_get_token tokens 0 = some name)
    (hacc : sys_access w (some name) = false) :
    launched_paths (cmd_exec w tokens s).2.trace =
      launched_paths s.trace ++
        (launched_until_zero w.wait_status s.nwait
          (candidates w name (path_dirs w.residue w.PATH.toList))).map some ∧
    (cmd_exec w tokens s).1 =
      (if found_zero w.wait_status s.nwait
          (candidates w name (path_dirs w.residue w.PATH.toList)) then 0 else -1) := by
  have hscan := cmd_exec_scan_eq_search w (some name) (cmd_exec_parse tokens) w.PATH.toList
    [] [] w.PATH.toList 0 0
    (((s.emit (Call.printf "the parent pid is %d and pgrp ID is %d\n"
      [PArg.int s.pid, PArg.int s.pgrp])).emit (Call.access (some name))).emit
        (Call.getenv "PATH")) (by simp) rfl rfl
  rw [path_dirs_from_nil] at hscan
  obtain ⟨h1, h2⟩ := search_dirs_launched w name (cmd_exec_parse tokens)
    (path_dirs w.residue w.PATH.toList)
    (((s.emit (Call.printf "the parent pid is %d and pgrp ID is %d\n"
      [PArg.int s.pid, PArg.int s.pgrp])).emit (Call.access (some name))).emit
        (Call.getenv "PATH"))
  have hl : launched_paths (((s.emit (Call.printf "the parent pid is %d and pgrp ID is %d\n"
      [PArg.int s.pid, PArg.int s.pgrp])).emit (Call.access (some name))).emit
        (Call.getenv "PATH")).trace = launched_paths s.trace := by
    simp [Sys.emit, launched_paths_append, launched_paths]
  have hn : (((s.emit (Call.printf "the parent pid is %d and pgrp ID is %d\n"
      [PArg.int s.pid, PArg.int s.pgrp])).emit (Call.access (some name))).emit
        (Call.getenv "PATH")).nwait = s.nwait := rfl
  rw [hl, hn] at h2
  rw [hn] at h1
  simp only [cmd_exec, hname, hacc, Bool.false_eq_true, if_false]
  rw [hscan]
  exact ⟨h2, h1⟩

/-- The claim C5 amended at `ls` on the demo machine: `/usr/bin/ls` is launched
first, its wait status is 256, so `/bin/ls` is launched as well. -/
theorem path_search_launches_witness :
    sys_access demo_world (some "ls") = false ∧
    launched_paths (cmd_exec demo_world ["ls"] demo_sys).2.trace =
      [some "/usr/bin/ls", some "/bin/ls"] :=
  ⟨by decide,
   (path_search_launches demo_world ["ls"] demo_sys "ls" (by decide) (by decide)).1.trans
     (by decide)⟩

/-! ## The directory strings handed to `cmd_exec2` -/

theorem dirs_passed_append (a b : List Call) :
    dirs_passed (a ++ b) = dirs_passed a ++ dirs_passed b := by
  simp [dirs_passed, List.filterMap_append]

theorem cmd_exec2_readdir_dirs (w : World) (path name : String) (args : List (Option String))
    (filename : Option String) (direction : Int) (entries : List String) :
    ∀ s : Sys,
      dirs_passed (cmd_exec2_readdir w path name args filename direction entries s).2.trace =
        dirs_passed s.trace := by
  induction entries with
  | nil => intro s; rfl
  | cons e es ih =>
    intro s
    simp only [cmd_exec2_readdir]
    split_ifs
    · simp [sys_wait, sys_fork, dirs_passed_append, dirs_passed]
    · rw [ih]
      simp [sys_wait, sys_fork, dirs_passed_append, dirs_passed]
    · exact ih s

theorem cmd_exec2_dirs (w : World) (path : String) (name : Option String)
    (args : List (Option String)) (filename : Option String) (direction : Int) (s : Sys) :
    dirs_passed (cmd_exec2 w path name args filename direction s).2.trace =
      dirs_passed s.trace ++ [some path] := by
  cases name with
  | none => simp [cmd_exec2, Sys.emit, dirs_passed_append, dirs_passed]
  | some n =>
    rcases hd : w.dir_entries path with _ | entries
    · simp [cmd_exec2, hd, Sys.emit, dirs_passed_append, dirs_passed]
    · simp only [cmd_exec2, hd]
      split_ifs
      · rw [cmd_exec2_readdir_dirs]
        simp [Sys.emit, dirs_passed_append, dirs_passed]
      · simp only [Sys.emit, dirs_passed_append]
        rw [cmd_exec2_readdir_dirs]
        simp [dirs_passed_append, dirs_passed]

theorem search_dirs_passed (w : World) (cmd : Option String) (d : CmdDescr)
    (dirs : List String) :
    ∀ s : Sys, (search_dirs w cmd d dirs s).1 ≠ 0 →
      dirs_passed (search_dirs w cmd d dirs s).2.trace = dirs_passed s.trace ++ dirs.map some := by
  induction dirs with
  | nil => intro s _; simp [search_dirs]
  | cons p ps ih =>
    intro s h
    simp only [search_dirs] at h ⊢
    by_cases h0 : (cmd_exec2 w p cmd d.args d.filename d.direction s).1 = 0
    · rw [if_pos h0] at h
      exact absurd rfl h
    · rw [if_neg h0] at h ⊢
      rw [ih _ h, cmd_exec2_dirs]
      simp

/-- When the command is not directly accessible and no directory yields a
launch followed by wait status 0, the directory strings handed to `cmd_exec2`
are `PATH` split on `:`, in order, every segment but the last as it is and
the last one followed by what the bytes after its unterminated buffer hold. -/
theorem path_search_dirs_passed (w : World) (tokens : List String) (s : Sys)
    (hacc : sys_access w (tokens_get_token tokens 0) = false)
    (hret : (cmd_exec w tokens s).1 ≠ 0) :
    dirs_passed (cmd_exec w tokens s).2.trace =
      dirs_passed s.trace ++ (path_dirs w.residue w.PATH.toList).map some := by
  have hscan := cmd_exec_scan_eq_search w (tokens_get_token tokens 0) (cmd_exec_parse tokens)
    w.PATH.toList [] [] w.PATH.toList 0 0
    (((s.emit (Call.printf "the parent pid is %d and pgrp ID is %d\n"
      [PArg.int s.pid, PArg.int s.pgrp])).emit (Call.access (tokens_get_token tokens 0))).emit
        (Call.getenv "PATH")) (by simp) rfl rfl
  rw [path_dirs_from_nil] at hscan
  simp only [cmd_exec, hacc, Bool.false_eq_true, if_false] at hret ⊢
  rw [hscan] at hret ⊢
  rw [search_dirs_passed w _ _ _ _ hret]
  simp [Sys.emit, dirs_passed_append, dirs_passed]

/-- C6, evaluated: with `PATH=/usr/bin:/bin` and a command found nowhere, the
first directory string handed to `cmd_exec2` is `/usr/bin`, cut out and
terminated inside the loop, but the buffer of the last segment holds `/bin`
followed by a byte that is never written, so the second string is whatever
memory holds there (here `/bin/bin`) rather than the segment `/bin`. -/
theorem last_path_segment_unterminated :
    sys_access demo_world_residue (some "nosuch") = false ∧
    ("/usr/bin:/bin".toList.splitOn ':').map String.mk = ["/usr/bin", "/bin"] ∧
    (copy_segment "/usr/bin:/bin".toList 0 8).set 8 Cell.nul =
      [Cell.chr '/', Cell.chr 'u', Cell.chr 's', Cell.chr 'r', Cell.chr '/', Cell.chr 'b',
       Cell.chr 'i', Cell.chr 'n', Cell.nul] ∧
    copy_segment "/usr/bin:/bin".toList 9 13 =
      [Cell.chr '/', Cell.chr 'b', Cell.chr 'i', Cell.chr 'n', Cell.indet] ∧
    dirs_passed (cmd_exec demo_world_residue ["nosuch"] demo_sys).2.trace =
      [some "/usr/bin", some "/bin/bin"] := by
  decide

end Shell
